import Mathlib

/-!
Verification of the graph-drawing library `netdrawer.py` against its
natural-language specification.  The Python source is shallowly embedded:
operator records become a Lean structure, the pydot graph construction
becomes a pure fold over the operator list that records every node-object
creation and every edge, and the JSON-based label escaping is embedded at
the character level.
-/

namespace Netdrawer

/-- Characters used symbolically (kept out of string literals). -/
def dqChar : Char := Char.ofNat 34

/-- Single quote character. -/
def sqChar : Char := Char.ofNat 39

/-- Backslash character. -/
def bsChar : Char := Char.ofNat 92

/-- Decimal digit characters, embedding of the digits used by Python `str`
on a nonnegative integer. -/
def digitChar (n : Nat) : Char :=
  match n with
  | 0 => '0' | 1 => '1' | 2 => '2' | 3 => '3' | 4 => '4'
  | 5 => '5' | 6 => '6' | 7 => '7' | 8 => '8' | 9 => '9'
  | _ => '*'

/-- Numeric value of a digit character. -/
def digitVal (c : Char) : Nat := c.toNat - 48

/-- Fuel-driven helper computing the big-endian decimal digits of a
natural number; enough fuel makes it total. -/
def natDigsF : Nat → Nat → List Char
  | 0, _ => []
  | fuel + 1, n =>
    if n < 10 then [digitChar n]
    else natDigsF fuel (n / 10) ++ [digitChar (n % 10)]

/-- Big-endian decimal digits of a natural number, exactly the characters
Python `str` produces for a nonnegative integer. -/
def natDigs (n : Nat) : List Char := natDigsF (n + 1) n

theorem natDigsF_congr : ∀ (fuel fuel' n : Nat), n < fuel → n < fuel' →
    natDigsF fuel n = natDigsF fuel' n := by
  intro fuel
  induction fuel with
  | zero => intro fuel' n h _; omega
  | succ f ih =>
    intro fuel' n hf hf'
    cases fuel' with
    | zero => omega
    | succ f' =>
      show natDigsF (f + 1) n = natDigsF (f' + 1) n
      by_cases h10 : n < 10
      · simp [natDigsF, h10]
      · have hdiv : n / 10 < n := Nat.div_lt_self (by omega) (by omega)
        simp only [natDigsF, h10, if_neg, dif_neg, ite_false]
        rw [ih f' (n / 10) (by omega) (by omega)]

theorem natDigs_step (n : Nat) :
    natDigs n = if n < 10 then [digitChar n]
      else natDigs (n / 10) ++ [digitChar (n % 10)] := by
  show natDigsF (n + 1) n = _
  by_cases h10 : n < 10
  · simp [natDigsF, h10]
  · have hdiv : n / 10 < n := Nat.div_lt_self (by omega) (by omega)
    simp only [natDigsF, h10, ite_false]
    rw [natDigsF_congr n (n / 10 + 1) (n / 10) (by omega) (by omega)]
    simp [natDigs, h10]

/-- Embedding of Python `str` on a nonnegative integer. -/
def pyStr (n : Nat) : String := ⟨natDigs n⟩

theorem digitVal_digitChar : ∀ m, m < 10 → digitVal (digitChar m) = m := by
  decide

theorem isDigit_digitChar : ∀ m, m < 10 → (digitChar m).isDigit = true := by
  decide

/-- Value of a digit list, folding left as positional notation. -/
def digsVal (l : List Char) : Nat := l.foldl (fun a c => a * 10 + digitVal c) 0

theorem digsVal_go (a : Nat) (l : List Char) :
    l.foldl (fun a c => a * 10 + digitVal c) a =
      a * 10 ^ l.length + digsVal l := by
  induction l generalizing a with
  | nil => simp [digsVal]
  | cons c t ih =>
    simp only [List.foldl_cons, digsVal]
    rw [ih (a * 10 + digitVal c), ih (0 * 10 + digitVal c)]
    ring_nf
    simp [List.length_cons, pow_succ]
    ring

theorem digsVal_append_single (l : List Char) (c : Char) :
    digsVal (l ++ [c]) = digsVal l * 10 + digitVal c := by
  simp [digsVal, List.foldl_append]

theorem digsVal_natDigs (n : Nat) : digsVal (natDigs n) = n := by
  induction n using Nat.strong_induction_on with
  | _ n ih =>
    rw [natDigs_step]
    by_cases h : n < 10
    · simp only [h, if_pos]
      simp [digsVal, digitVal_digitChar n h]
    · simp only [h, if_neg, not_false_iff, ite_false]
      rw [digsVal_append_single, ih (n / 10) (Nat.div_lt_self (by omega) (by omega)),
        digitVal_digitChar (n % 10) (Nat.mod_lt _ (by omega))]
      omega

theorem natDigs_injective : Function.Injective natDigs := by
  intro a b h
  have := digsVal_natDigs a
  rw [h, digsVal_natDigs] at this
  omega

theorem pyStr_injective : Function.Injective pyStr := by
  intro a b h
  exact natDigs_injective (congrArg String.data h)

theorem natDigs_all_digit (n : Nat) : ∀ c ∈ natDigs n, c.isDigit = true := by
  induction n using Nat.strong_induction_on with
  | _ n ih =>
    rw [natDigs_step]
    by_cases h : n < 10
    · simp only [h, if_pos]
      intro c hc
      simp at hc
      subst hc
      exact isDigit_digitChar n h
    · simp only [h, if_neg, not_false_iff, ite_false]
      intro c hc
      rcases List.mem_append.1 hc with h1 | h1
      · exact ih (n / 10) (Nat.div_lt_self (by omega) (by omega)) c h1
      · simp at h1
        subst h1
        exact isDigit_digitChar (n % 10) (Nat.mod_lt _ (by omega))

/-- Hexadecimal digit characters, lowercase, as produced by Python's
`json.dumps` when it emits a unicode escape. -/
def hexDigit (n : Nat) : Char :=
  match n with
  | 0 => '0' | 1 => '1' | 2 => '2' | 3 => '3' | 4 => '4'
  | 5 => '5' | 6 => '6' | 7 => '7' | 8 => '8' | 9 => '9'
  | 10 => 'a' | 11 => 'b' | 12 => 'c' | 13 => 'd' | 14 => 'e' | 15 => 'f'
  | _ => '*'

/-- Numeric value of a hexadecimal digit character, accepting both cases
as a JSON string-literal parser does. -/
def hexVal (c : Char) : Option Nat :=
  if c.isDigit then some (c.toNat - 48)
  else if 97 ≤ c.toNat ∧ c.toNat ≤ 102 then some (c.toNat - 87)
  else if 65 ≤ c.toNat ∧ c.toNat ≤ 70 then some (c.toNat - 55)
  else none

theorem hexVal_hexDigit : ∀ d, d < 16 → hexVal (hexDigit d) = some d := by
  decide

/-- Four lowercase hex digits of a value below 0x10000, the `%04x` format
used by `json.dumps` unicode escapes. -/
def hex4 (n : Nat) : List Char :=
  [hexDigit (n / 4096 % 16), hexDigit (n / 256 % 16),
   hexDigit (n / 16 % 16), hexDigit (n % 16)]

/-- One `\uXXXX` escape. -/
def uEscape (n : Nat) : List Char := bsChar :: 'u' :: hex4 n

/-- Escape of a single character, embedding the per-character action of
Python `json.dumps` with its default `ensure_ascii=True`: backslash and
double quote get a two-character escape, the five named control characters
get their short escapes, other characters in the printable ASCII range
0x20..0x7E pass through, every other BMP character becomes `\uXXXX`, and
characters above 0xFFFF become a UTF-16 surrogate pair of escapes. -/
def escapeChar (c : Char) : List Char :=
  if c = bsChar then [bsChar, bsChar]
  else if c = dqChar then [bsChar, dqChar]
  else if c = Char.ofNat 8 then [bsChar, 'b']
  else if c = Char.ofNat 9 then [bsChar, 't']
  else if c = Char.ofNat 10 then [bsChar, 'n']
  else if c = Char.ofNat 12 then [bsChar, 'f']
  else if c = Char.ofNat 13 then [bsChar, 'r']
  else if 32 ≤ c.toNat ∧ c.toNat ≤ 126 then [c]
  else if c.toNat < 65536 then uEscape c.toNat
  else uEscape (55296 + (c.toNat - 65536) / 1024) ++
       uEscape (56320 + (c.toNat - 65536) % 1024)

/-- Embedding of `_escape_label` from `netdrawer.py`: `json.dumps` applied
to the name, producing a double-quoted JSON string literal. -/
def escape_label (s : String) : String :=
  ⟨dqChar :: s.data.flatMap escapeChar ++ [dqChar]⟩

/-- Parse four hex digits, returning the value and the remaining input. -/
def parseHex4 : List Char → Option (Nat × List Char)
  | a :: b :: c :: d :: rest =>
    match hexVal a, hexVal b, hexVal c, hexVal d with
    | some x, some y, some z, some w => some (((x * 16 + y) * 16 + z) * 16 + w, rest)
    | _, _, _, _ => none
  | _ => none

/-- Modelled from the spec: parse the `XXXX` of a `\uXXXX` escape in a JSON
string literal; a high-surrogate value must be followed by a second
`\uXXXX` escape holding a low surrogate, and the pair combines into one
scalar value; a lone surrogate escape is rejected. -/
def parseUEscape (l : List Char) : Option (Nat × List Char) :=
  match parseHex4 l with
  | none => none
  | some (n, rest) =>
    if 55296 ≤ n ∧ n ≤ 56319 then
      match rest with
      | b1 :: u1 :: rest2 =>
        if b1 = bsChar ∧ u1 = 'u' then
          match parseHex4 rest2 with
          | some (m, rest3) =>
            if 56320 ≤ m ∧ m ≤ 57343 then
              some (65536 + (n - 55296) * 1024 + (m - 56320), rest3)
            else none
          | none => none
        else none
      | _ => none
    else if 56320 ≤ n ∧ n ≤ 57343 then none
    else some (n, rest)

/-- Modelled from the spec: body of a JSON string-literal parser ("parsing
the result as a string literal").  It consumes characters until the closing
double quote, which must end the input; escape sequences follow RFC 8259. -/
def parseBody : Nat → List Char → Option (List Char)
  | 0, _ => none
  | _ + 1, [] => none
  | fuel + 1, c :: rest =>
    if c = dqChar then
      if rest.isEmpty then some [] else none
    else if c = bsChar then
      match rest with
      | [] => none
      | e :: rest2 =>
        if e = dqChar then (parseBody fuel rest2).map (dqChar :: ·)
        else if e = bsChar then (parseBody fuel rest2).map (bsChar :: ·)
        else if e = '/' then (parseBody fuel rest2).map ('/' :: ·)
        else if e = 'b' then (parseBody fuel rest2).map (Char.ofNat 8 :: ·)
        else if e = 't' then (parseBody fuel rest2).map (Char.ofNat 9 :: ·)
        else if e = 'n' then (parseBody fuel rest2).map (Char.ofNat 10 :: ·)
        else if e = 'f' then (parseBody fuel rest2).map (Char.ofNat 12 :: ·)
        else if e = 'r' then (parseBody fuel rest2).map (Char.ofNat 13 :: ·)
        else if e = 'u' then
          match parseUEscape rest2 with
          | none => none
          | some (n, rest3) => (parseBody fuel rest3).map (Char.ofNat n :: ·)
        else none
    else if c.toNat < 32 then none
    else (parseBody fuel rest).map (c :: ·)

/-- Modelled from the spec: parse a complete JSON string literal. -/
def parseStringLiteral (s : String) : Option String :=
  match s.data with
  | c :: rest =>
    if c = dqChar then (parseBody (rest.length + 1) rest).map (⟨·⟩) else none
  | [] => none

theorem char_valid_toNat (c : Char) :
    c.toNat < 55296 ∨ (57343 < c.toNat ∧ c.toNat < 1114112) := by
  rcases c.valid with h | ⟨h1, h2⟩
  · left
    exact h
  · right
    exact ⟨h1, h2⟩

theorem parseHex4_hex4 (n : Nat) (hn : n < 65536) (rest : List Char) :
    parseHex4 (hex4 n ++ rest) = some (n, rest) := by
  have e3 := hexVal_hexDigit (n / 4096 % 16) (Nat.mod_lt _ (by omega))
  have e2 := hexVal_hexDigit (n / 256 % 16) (Nat.mod_lt _ (by omega))
  have e1 := hexVal_hexDigit (n / 16 % 16) (Nat.mod_lt _ (by omega))
  have e0 := hexVal_hexDigit (n % 16) (Nat.mod_lt _ (by omega))
  simp only [hex4, List.cons_append, List.nil_append, parseHex4, e3, e2, e1, e0]
  congr 1
  congr 1
  omega

theorem parseUEscape_bmp (n : Nat) (hn : n < 65536)
    (h1 : ¬ (55296 ≤ n ∧ n ≤ 56319)) (h2 : ¬ (56320 ≤ n ∧ n ≤ 57343))
    (rest : List Char) : parseUEscape (hex4 n ++ rest) = some (n, rest) := by
  unfold parseUEscape
  rw [parseHex4_hex4 n hn]
  show (if 55296 ≤ n ∧ n ≤ 56319 then
      match rest with
      | b1 :: u1 :: rest2 =>
        if b1 = bsChar ∧ u1 = 'u' then
          match parseHex4 rest2 with
          | some (m, rest3) =>
            if 56320 ≤ m ∧ m ≤ 57343 then
              some (65536 + (n - 55296) * 1024 + (m - 56320), rest3)
            else none
          | none => none
        else none
      | _ => none
    else if 56320 ≤ n ∧ n ≤ 57343 then none
    else some (n, rest)) = some (n, rest)
  rw [if_neg h1, if_neg h2]

theorem parseUEscape_sur (u : Nat) (hge : 65536 ≤ u) (hlt : u < 1114112)
    (rest : List Char) :
    parseUEscape (hex4 (55296 + (u - 65536) / 1024) ++
      (bsChar :: 'u' :: (hex4 (56320 + (u - 65536) % 1024) ++ rest))) =
      some (u, rest) := by
  have hmod : (u - 65536) % 1024 ≤ 1023 := by
    have := Nat.mod_lt (u - 65536) (show 0 < 1024 by omega)
    omega
  obtain ⟨hi, hhieq⟩ : ∃ hi, 55296 + (u - 65536) / 1024 = hi := ⟨_, rfl⟩
  obtain ⟨lo, hloeq⟩ : ∃ lo, 56320 + (u - 65536) % 1024 = lo := ⟨_, rfl⟩
  have hhiv : hi < 65536 := by omega
  have hlov : lo < 65536 := by omega
  have hsur : 55296 ≤ hi ∧ hi ≤ 56319 := by omega
  have hsur2 : 56320 ≤ lo ∧ lo ≤ 57343 := by omega
  have hcc : bsChar = bsChar ∧ 'u' = 'u' := ⟨rfl, rfl⟩
  rw [hhieq, hloeq]
  unfold parseUEscape
  rw [parseHex4_hex4 hi hhiv]
  show (if 55296 ≤ hi ∧ hi ≤ 56319 then
      match bsChar :: 'u' :: (hex4 lo ++ rest) with
      | b1 :: u1 :: rest2 =>
        if b1 = bsChar ∧ u1 = 'u' then
          match parseHex4 rest2 with
          | some (m, rest3) =>
            if 56320 ≤ m ∧ m ≤ 57343 then
              some (65536 + (hi - 55296) * 1024 + (m - 56320), rest3)
            else none
          | none => none
        else none
      | _ => none
    else if 56320 ≤ hi ∧ hi ≤ 57343 then none
    else some (hi, bsChar :: 'u' :: (hex4 lo ++ rest))) = some (u, rest)
  rw [if_pos hsur]
  show (if bsChar = bsChar ∧ 'u' = 'u' then
      match parseHex4 (hex4 lo ++ rest) with
      | some (m, rest3) =>
        if 56320 ≤ m ∧ m ≤ 57343 then
          some (65536 + (hi - 55296) * 1024 + (m - 56320), rest3)
        else none
      | none => none
    else none) = some (u, rest)
  rw [if_pos hcc, parseHex4_hex4 lo hlov]
  show (if 56320 ≤ lo ∧ lo ≤ 57343 then
      some (65536 + (hi - 55296) * 1024 + (lo - 56320), rest)
    else none) = some (u, rest)
  rw [if_pos hsur2]
  simp only [Option.some.injEq, Prod.mk.injEq]
  exact ⟨by omega, trivial⟩

theorem parseBody_escape (l : List Char) : ∀ fuel : Nat,
    (l.flatMap escapeChar).length + 1 ≤ fuel →
    parseBody fuel (l.flatMap escapeChar ++ [dqChar]) = some l := by
  induction l with
  | nil =>
    intro fuel hf
    match fuel, hf with
    | f + 1, _ =>
      simp [parseBody]
  | cons c t ih =>
    intro fuel hf
    rw [List.flatMap_cons] at hf ⊢
    have hlen : 1 ≤ (escapeChar c).length := by
      unfold escapeChar
      repeat' split
      all_goals simp [uEscape, hex4]
    match fuel, hf with
    | f + 1, hf =>
      have hfuel : (t.flatMap escapeChar).length + 1 ≤ f := by
        have := List.length_append (escapeChar c) (t.flatMap escapeChar)
        omega
      have recur := ih f hfuel
      by_cases h1 : c = bsChar
      · subst h1
        simp +decide [escapeChar, parseBody, recur]
      by_cases h2 : c = dqChar
      · subst h2
        simp +decide [escapeChar, parseBody, recur]
      by_cases h3 : c = Char.ofNat 8
      · subst h3
        simp +decide [escapeChar, parseBody, recur]
      by_cases h4 : c = Char.ofNat 9
      · subst h4
        simp +decide [escapeChar, parseBody, recur]
      by_cases h5 : c = Char.ofNat 10
      · subst h5
        simp +decide [escapeChar, parseBody, recur]
      by_cases h6 : c = Char.ofNat 12
      · subst h6
        simp +decide [escapeChar, parseBody, recur]
      by_cases h7 : c = Char.ofNat 13
      · subst h7
        simp +decide [escapeChar, parseBody, recur]
      by_cases h8 : 32 ≤ c.toNat ∧ c.toNat ≤ 126
      · have hesc : escapeChar c = [c] := by
          simp [escapeChar, h1, h2, h3, h4, h5, h6, h7, h8]
        rw [hesc]
        have hlt : ¬ c.toNat < 32 := by omega
        simp [parseBody, h1, h2, hlt, recur]
      by_cases h9 : c.toNat < 65536
      · have hesc : escapeChar c = uEscape c.toNat := by
          simp [escapeChar, h1, h2, h3, h4, h5, h6, h7, h8, h9]
        rw [hesc]
        have hval := char_valid_toNat c
        have hlo : ¬ (55296 ≤ c.toNat ∧ c.toNat ≤ 56319) := by omega
        have hhi : ¬ (56320 ≤ c.toNat ∧ c.toNat ≤ 57343) := by omega
        simp +decide [uEscape, parseBody, List.append_eq,
          parseUEscape_bmp c.toNat h9 hlo hhi, recur, Char.ofNat_toNat]
      · have hval := char_valid_toNat c
        obtain ⟨hi, hhieq⟩ : ∃ hi, 55296 + (c.toNat - 65536) / 1024 = hi := ⟨_, rfl⟩
        obtain ⟨lo, hloeq⟩ : ∃ lo, 56320 + (c.toNat - 65536) % 1024 = lo := ⟨_, rfl⟩
        have hesc : escapeChar c = uEscape hi ++ uEscape lo := by
          rw [← hhieq, ← hloeq]
          simp [escapeChar, h1, h2, h3, h4, h5, h6, h7, h8, h9]
        have hu : parseUEscape (hex4 hi ++ (bsChar :: 'u' ::
            (hex4 lo ++ (t.flatMap escapeChar ++ [dqChar])))) =
            some (c.toNat, t.flatMap escapeChar ++ [dqChar]) := by
          rw [← hhieq, ← hloeq]
          exact parseUEscape_sur c.toNat (by omega) (by omega) _
        rw [hesc]
        have hshape : uEscape hi ++ uEscape lo ++ t.flatMap escapeChar ++ [dqChar] =
            bsChar :: 'u' :: (hex4 hi ++ (bsChar :: 'u' ::
              (hex4 lo ++ (t.flatMap escapeChar ++ [dqChar])))) := by
          simp [uEscape]
        rw [hshape]
        show (match parseUEscape (hex4 hi ++ (bsChar :: 'u' ::
            (hex4 lo ++ (t.flatMap escapeChar ++ [dqChar])))) with
          | none => none
          | some (n, rest3) => (parseBody f rest3).map (Char.ofNat n :: ·)) =
          some (c :: t)
        rw [hu]
        show (parseBody f (t.flatMap escapeChar ++ [dqChar])).map
          (Char.ofNat c.toNat :: ·) = some (c :: t)
        rw [recur, Char.ofNat_toNat]
        rfl

theorem parseStringLiteral_escape_label (s : String) :
    parseStringLiteral (escape_label s) = some s := by
  have hb := parseBody_escape s.data ((s.data.flatMap escapeChar ++ [dqChar]).length + 1)
    (by simp)
  show ((parseBody ((s.data.flatMap escapeChar ++ [dqChar]).length + 1)
      (s.data.flatMap escapeChar ++ [dqChar])).map fun l => (⟨l⟩ : String)) = some s
  rw [hb]
  rfl

theorem escape_label_injective : Function.Injective escape_label := by
  intro a b h
  have ha := parseStringLiteral_escape_label a
  rw [h, parseStringLiteral_escape_label] at ha
  exact (Option.some.injEq _ _).mp ha.symm

/-- Embedding of Python `str.replace` for a single-character pattern and a
single-character replacement. -/
def pyReplaceChar (s : String) (a b : Char) : String :=
  ⟨s.data.map (fun c => if c = a then b else c)⟩

/-- Embedding of Python `str.replace` for a single-character pattern and an
empty replacement (deletion of every occurrence). -/
def pyDeleteChar (s : String) (a : Char) : String :=
  ⟨s.data.filter (fun c => c ≠ a)⟩

/-- Embedding of `_form_and_sanitize_docstring` from `netdrawer.py`: wrap
the JSON-escaped annotation in a `javascript:alert(...)` pseudo-URL after
turning every double quote into a single quote and deleting every angle
bracket. -/
def _form_and_sanitize_docstring (s : String) : String :=
  "javascript:alert(" ++
    pyDeleteChar (pyDeleteChar (pyReplaceChar (escape_label s) dqChar sqChar) '<') '>' ++
    ")"

/-- Embedding of a `NodeProto` operator record as the drawing code reads
it: name, operator type, input names, output names, and the free-text
annotation (`doc_string`). -/
structure NodeProto where
  name : String
  op_type : String
  input : List String
  output : List String
  doc_string : String
deriving DecidableEq, Repr

/-- The module-level `timings` list of `netdrawer.py`, verbatim. -/
def timings : List Nat :=
  [ 1325706, 799440, 1263204, 257175, 936527, 2387987, 241757, 260674, 239340, 416096,
    422262, 101753, 1302205, 255840, 256091, 238423, 388095, 727271, 371094, 72168,
    1496044, 145171, 205172, 159504, 244174, 668436, 84169, 1276538, 145671, 222340,
    178588, 283175, 335177, 267424, 58919, 808940, 83086, 138254, 81336, 138670,
    390011, 57585, 3122175, 81586, 160588, 80085, 153421, 502681, 61502, 1581796,
    93753, 207673, 93669, 156505, 663186, 59502, 1563713, 93503, 202422, 94170,
    152255, 135504, 3697191, 240590, 294509, 347594 ]

/-- Embedding of the timing lookup in `ReallyGetOpNode`: the source guards
the list access with `op_id <= len(timings)` and falls back to `0` in the
`else` branch; an access outside the list raises `IndexError`, which the
embedding renders as `none`. -/
def timingFor (op_id : Nat) : Option Nat :=
  if op_id ≤ timings.length then timings[op_id]? else some 0

/-- Embedding of the label computed by `ReallyGetOpNode` for one operator
record at a zero-based index: the head depends on whether the record has a
(non-empty) name, and one line per input and per output is appended by the
two `for` loops.  `none` models the `IndexError` raised by the timing
lookup for an unnamed operator at an out-of-range index. -/
def opNodeName (op : NodeProto) (op_id : Nat) : Option String :=
  (if op.name ≠ "" then
    some (op.name ++ "/" ++ op.op_type ++ " (op#" ++ pyStr op_id ++ ")")
  else
    (timingFor op_id).map (fun t =>
      op.op_type ++ " (op#" ++ pyStr op_id ++ ") [" ++ pyStr t ++ " ns]")).map
    (fun base =>
      op.output.enum.foldl
        (fun acc p => acc ++ ("\n output" ++ pyStr p.1 ++ " " ++ p.2))
        (op.input.enum.foldl
          (fun acc p => acc ++ ("\n input" ++ pyStr p.1 ++ " " ++ p.2))
          base))

/-- A graph node creation event of `GetPydotGraph`.  An `op` node is
created once per operator iteration and carries its label; a `blob` node
records the blob name and the version counter used at creation, and
whether it was created by the output branch (`asOutput = true`) or by the
input branch.  `serial` is the position of the creation among all
`pydot.Node` constructor calls. -/
inductive GNode where
  | op (serial : Nat) (iter : Nat) (label : String)
  | blob (serial : Nat) (iter : Nat) (bname : String) (bcount : Nat) (asOutput : Bool)
deriving DecidableEq, Repr

/-- The dot-level node name (identity) of a created node: an operator node
is named by its label, a blob node by `_escape_label(name + str(count))`
as in the source. -/
def GNode.dotName : GNode → String
  | .op _ _ l => l
  | .blob _ _ n c _ => escape_label (n ++ pyStr c)

/-- Creation serial of a node. -/
def GNode.serialOf : GNode → Nat
  | .op s _ _ => s
  | .blob s _ _ _ _ => s

/-- Operator iteration during which a node was created. -/
def GNode.iterOf : GNode → Nat
  | .op _ i _ => i
  | .blob _ i _ _ _ => i

/-- Whether a node is a blob node with the given blob name. -/
def GNode.isBlobNamed (n : String) : GNode → Bool
  | .blob _ _ m _ _ => m = n
  | .op _ _ _ => false

/-- Version counter recorded in a blob node (0 for operator nodes). -/
def GNode.bcountOf : GNode → Nat
  | .blob _ _ _ c _ => c
  | .op _ _ _ => 0

/-- State of `GetPydotGraph` during its single pass: node creations in
order, edges in insertion order, the `pydot_nodes` mapping from blob name
to its current version node, and the `pydot_node_counts` defaultdict. -/
structure BuildSt where
  nodes : List GNode
  edges : List (GNode × GNode)
  current : String → Option GNode
  counts : String → Nat

/-- Embedding of the input loop body of `GetPydotGraph`: a never-seen blob
name gets a fresh version node built from the current counter value and is
registered; otherwise the registered node is reused.  Either way one edge
from the blob node to the operator node is added. -/
def processInput (opN : GNode) (op_id : Nat) (st : BuildSt) (input_name : String) :
    BuildSt :=
  match st.current input_name with
  | none =>
    let node := GNode.blob st.nodes.length op_id input_name (st.counts input_name) false
    { nodes := st.nodes ++ [node]
      edges := st.edges ++ [(node, opN)]
      current := fun n => if n = input_name then some node else st.current n
      counts := st.counts }
  | some node =>
    { st with edges := st.edges ++ [(node, opN)] }

/-- Embedding of the output loop body of `GetPydotGraph`: if the blob name
is already registered its counter is incremented first; a new version node
is always created and registered, and one edge from the operator node to
it is added. -/
def processOutput (opN : GNode) (op_id : Nat) (st : BuildSt) (output_name : String) :
    BuildSt :=
  let counts' : String → Nat :=
    match st.current output_name with
    | some _ => fun n => if n = output_name then st.counts output_name + 1 else st.counts n
    | none => st.counts
  let node := GNode.blob st.nodes.length op_id output_name (counts' output_name) true
  { nodes := st.nodes ++ [node]
    edges := st.edges ++ [(opN, node)]
    current := fun n => if n = output_name then some node else st.current n
    counts := counts' }

/-- Embedding of one iteration of the operator loop of `GetPydotGraph`:
produce the operator node via the labeler (`none` models the uncaught
`IndexError` from the timing lookup), then process all inputs, then all
outputs. -/
def processOp (st : BuildSt) (op : NodeProto) (op_id : Nat) : Option BuildSt :=
  match opNodeName op op_id with
  | none => none
  | some lbl =>
    let opN := GNode.op st.nodes.length op_id lbl
    let st1 : BuildSt := { st with nodes := st.nodes ++ [opN] }
    let st2 := op.input.foldl (processInput opN op_id) st1
    let st3 := op.output.foldl (processOutput opN op_id) st2
    some st3

/-- The operator loop of `GetPydotGraph`, with the running `enumerate`
index. -/
def buildAux (st : BuildSt) (i : Nat) : List NodeProto → Option BuildSt
  | [] => some st
  | op :: rest =>
    match processOp st op i with
    | none => none
    | some st' => buildAux st' (i + 1) rest

/-- Initial builder state: empty graph, empty `pydot_nodes`, counters all
at their defaultdict value 0. -/
def initSt : BuildSt := ⟨[], [], fun _ => none, fun _ => 0⟩

/-- Embedding of `GetPydotGraph` with the default node producer: the graph
build over an ordered operator list, or `none` when the labeler raises. -/
def GetPydotGraph (ops : List NodeProto) : Option BuildSt :=
  buildAux initSt 0 ops

/-- Number of output occurrences of a blob name across an operator list
(counting duplicate declarations within one operator). -/
def outOcc (n : String) (ops : List NodeProto) : Nat :=
  (ops.map (fun op => op.output.count n)).sum

/-- Number of input occurrences of a blob name across an operator list. -/
def inOcc (n : String) (ops : List NodeProto) : Nat :=
  (ops.map (fun op => op.input.count n)).sum

/-- Whether the name's first occurrence in traversal order is as an input:
within one operator all inputs are processed before all outputs. -/
def readBeforeProd (n : String) : List NodeProto → Bool
  | [] => false
  | op :: rest =>
    if op.input.contains n then true
    else if op.output.contains n then false
    else readBeforeProd n rest

/-- Number of blob node creations the build performs for one name. -/
def creations (n : String) (ops : List NodeProto) : Nat :=
  outOcc n ops + (if readBeforeProd n ops then 1 else 0)

/-- Whether some operator of the list mentions the name at all. -/
def touched (n : String) (ops : List NodeProto) : Bool :=
  ops.any (fun op => op.input.contains n || op.output.contains n)

/-- The blob nodes of a node list carrying a given name, in order. -/
def blobsNamed (n : String) (l : List GNode) : List GNode :=
  l.filter (GNode.isBlobNamed n)

/-- Project an operator node to its iteration index and label. -/
def opProj : GNode → Option (Nat × String)
  | .op _ i l => some (i, l)
  | .blob _ _ _ _ _ => none

/-- Expected `(index, label)` list for a prefix of operators starting at a
given index, when every label is produced. -/
def opLabels (i : Nat) : List NodeProto → Option (List (Nat × String))
  | [] => some []
  | op :: rest =>
    match opNodeName op i, opLabels (i + 1) rest with
    | some l, some ls => some ((i, l) :: ls)
    | _, _ => none

/-- List of consecutive naturals, used to state the version-counter
progression. -/
def natRange : Nat → Nat → List Nat
  | _, 0 => []
  | s, m + 1 => s :: natRange (s + 1) m

/-- Rank function used to prove that the built graph is acyclic: input
blob creations sit below their iteration's operator node, output blob
creations above it. -/
def rank : GNode → Nat
  | .op _ i _ => 3 * i + 1
  | .blob _ i _ _ false => 3 * i
  | .blob _ i _ _ true => 3 * i + 2

/-- Well-formedness of the builder state: every registered current node is
a blob node carrying its own key as name and is among the created nodes. -/
structure WF (st : BuildSt) : Prop where
  curNamed : ∀ m b, st.current m = some b → b.isBlobNamed m = true
  curInNodes : ∀ m b, st.current m = some b → b ∈ st.nodes

theorem isBlobNamed_eq {b : GNode} {m n : String}
    (hm : b.isBlobNamed m = true) (hn : b.isBlobNamed n = true) : m = n := by
  cases b with
  | op s i l => simp [GNode.isBlobNamed] at hm
  | blob s i nm c f =>
    simp [GNode.isBlobNamed] at hm hn
    rw [← hm, ← hn]

theorem blobsNamed_append (n : String) (l l' : List GNode) :
    blobsNamed n (l ++ l') = blobsNamed n l ++ blobsNamed n l' := by
  simp [blobsNamed, List.filter_append]

theorem blobsNamed_op (n : String) (s i : Nat) (lbl : String) :
    blobsNamed n [GNode.op s i lbl] = [] := by
  simp [blobsNamed, GNode.isBlobNamed]

theorem blobsNamed_blob (n : String) (s i : Nat) (m : String) (c : Nat) (f : Bool) :
    blobsNamed n [GNode.blob s i m c f] =
      if m = n then [GNode.blob s i m c f] else [] := by
  by_cases h : m = n <;> simp [blobsNamed, GNode.isBlobNamed, h]

theorem inFold_counts (opN : GNode) (iid : Nat) :
    ∀ (inputs : List String) (st : BuildSt),
    (inputs.foldl (processInput opN iid) st).counts = st.counts := by
  intro inputs
  induction inputs with
  | nil => intro st; rfl
  | cons a rest ih =>
    intro st
    rw [List.foldl_cons, ih]
    cases hc : st.current a <;> simp [processInput, hc]

theorem processInput_curMono (opN : GNode) (iid : Nat) (st : BuildSt) (a m : String)
    (b : GNode) (h : st.current m = some b) :
    (processInput opN iid st a).current m = some b := by
  cases hc : st.current a with
  | none =>
    simp only [processInput, hc]
    by_cases hma : m = a
    · rw [hma] at h; rw [h] at hc; exact absurd hc (by simp)
    · simp [hma, h]
  | some bb => simp [processInput, hc, h]

theorem processInput_counts (opN : GNode) (iid : Nat) (st : BuildSt) (a : String) :
    (processInput opN iid st a).counts = st.counts := by
  cases hc : st.current a <;> simp [processInput, hc]

theorem inFold_curMono (opN : GNode) (iid : Nat) :
    ∀ (inputs : List String) (st : BuildSt) (m : String) (b : GNode),
    st.current m = some b →
    (inputs.foldl (processInput opN iid) st).current m = some b := by
  intro inputs
  induction inputs with
  | nil => intro st m b h; exact h
  | cons a rest ih =>
    intro st m b h
    rw [List.foldl_cons]
    exact ih _ m b (processInput_curMono opN iid st a m b h)

theorem inFold_curChar (opN : GNode) (iid : Nat) :
    ∀ (inputs : List String) (st : BuildSt) (m : String) (b : GNode),
    (inputs.foldl (processInput opN iid) st).current m = some b →
    st.current m = some b ∨
      (st.current m = none ∧ ∃ s, b = GNode.blob s iid m (st.counts m) false) := by
  intro inputs
  induction inputs with
  | nil => intro st m b h; exact Or.inl h
  | cons a rest ih =>
    intro st m b h
    rw [List.foldl_cons] at h
    rcases ih _ m b h with h' | ⟨hnone, s, hb⟩
    · cases hc : st.current a with
      | none =>
        simp only [processInput, hc] at h'
        by_cases hma : m = a
        · subst hma
          simp only [if_pos rfl] at h'
          right
          refine ⟨hc, st.nodes.length, ?_⟩
          exact (Option.some.injEq _ _).mp h'.symm
        · simp only [if_neg hma] at h'
          exact Or.inl h'
      | some bb =>
        simp only [processInput, hc] at h'
        exact Or.inl h'
    · rw [processInput_counts] at hb
      have hstnone : st.current m = none := by
        cases hcm : st.current m with
        | none => rfl
        | some bm =>
          have := processInput_curMono opN iid st a m bm hcm
          rw [hnone] at this
          cases this
      exact Or.inr ⟨hstnone, s, hb⟩

theorem inFold_curNone (opN : GNode) (iid : Nat) :
    ∀ (inputs : List String) (st : BuildSt) (m : String), m ∉ inputs →
    (inputs.foldl (processInput opN iid) st).current m = st.current m := by
  intro inputs
  induction inputs with
  | nil => intro st m _; rfl
  | cons a rest ih =>
    intro st m hm
    rw [List.foldl_cons, ih _ m (fun hr => hm (List.mem_cons_of_mem a hr))]
    have hma : m ≠ a := fun he => hm (he ▸ List.mem_cons_self a rest)
    cases hc : st.current a <;> simp [processInput, hc, hma]

theorem inFold_curSome (opN : GNode) (iid : Nat) :
    ∀ (inputs : List String) (st : BuildSt) (m : String), m ∈ inputs →
    ∃ b, (inputs.foldl (processInput opN iid) st).current m = some b := by
  intro inputs
  induction inputs with
  | nil => intro st m hm; exact absurd hm (List.not_mem_nil m)
  | cons a rest ih =>
    intro st m hm
    rw [List.foldl_cons]
    rcases List.mem_cons.1 hm with rfl | hr
    · have : ∃ b, (processInput opN iid st m).current m = some b := by
        cases hc : st.current m <;> simp [processInput, hc]
      rcases this with ⟨b, hb⟩
      exact ⟨b, inFold_curMono opN iid rest _ m b hb⟩
    · exact ih _ m hr

theorem inFold_curNamed (opN : GNode) (iid : Nat) :
    ∀ (inputs : List String) (st : BuildSt),
    (∀ m b, st.current m = some b → b.isBlobNamed m = true) →
    ∀ m b, (inputs.foldl (processInput opN iid) st).current m = some b →
      b.isBlobNamed m = true := by
  intro inputs st hw m b h
  rcases inFold_curChar opN iid inputs st m b h with h' | ⟨_, s, rfl⟩
  · exact hw m b h'
  · simp [GNode.isBlobNamed]

theorem inFold_nodes (opN : GNode) (iid : Nat) :
    ∀ (inputs : List String) (st : BuildSt),
    ∃ new, (inputs.foldl (processInput opN iid) st).nodes = st.nodes ++ new ∧
      ∀ g ∈ new, ∃ s m, g = GNode.blob s iid m (st.counts m) false ∧
        st.current m = none := by
  intro inputs
  induction inputs with
  | nil => intro st; exact ⟨[], by simp, by simp⟩
  | cons a rest ih =>
    intro st
    rw [List.foldl_cons]
    rcases ih (processInput opN iid st a) with ⟨new', hn, hshape⟩
    cases hc : st.current a with
    | none =>
      refine ⟨GNode.blob st.nodes.length iid a (st.counts a) false :: new', ?_, ?_⟩
      · rw [hn]
        simp [processInput, hc]
      · intro g hg
        rcases List.mem_cons.1 hg with rfl | hg'
        · exact ⟨st.nodes.length, a, rfl, hc⟩
        · rcases hshape g hg' with ⟨s, m, hgm, hcur⟩
          rw [processInput_counts] at hgm
          refine ⟨s, m, hgm, ?_⟩
          cases hcm : st.current m with
          | none => rfl
          | some bm =>
            have := processInput_curMono opN iid st a m bm hcm
            rw [hcur] at this
            cases this
    | some bb =>
      refine ⟨new', ?_, ?_⟩
      · rw [hn]
        simp [processInput, hc]
      · intro g hg
        rcases hshape g hg with ⟨s, m, hgm, hcur⟩
        rw [processInput_counts] at hgm
        refine ⟨s, m, hgm, ?_⟩
        cases hcm : st.current m with
        | none => rfl
        | some bm =>
          have := processInput_curMono opN iid st a m bm hcm
          rw [hcur] at this
          cases this

theorem inFold_blobsNamed (opN : GNode) (iid : Nat) :
    ∀ (inputs : List String) (st : BuildSt) (n : String),
    ∃ s, blobsNamed n (inputs.foldl (processInput opN iid) st).nodes =
      blobsNamed n st.nodes ++
      (if st.current n = none ∧ n ∈ inputs
       then [GNode.blob s iid n (st.counts n) false] else []) := by
  intro inputs
  induction inputs with
  | nil =>
    intro st n
    exact ⟨0, by simp⟩
  | cons a rest ih =>
    intro st n
    rw [List.foldl_cons]
    rcases ih (processInput opN iid st a) n with ⟨s, hs⟩
    rw [processInput_counts] at hs
    cases hc : st.current a with
    | none =>
      have hnodes : (processInput opN iid st a).nodes =
          st.nodes ++ [GNode.blob st.nodes.length iid a (st.counts a) false] := by
        simp [processInput, hc]
      by_cases hna : n = a
      · subst hna
        have hcur' : (processInput opN iid st n).current n =
            some (GNode.blob st.nodes.length iid n (st.counts n) false) := by
          simp [processInput, hc]
        refine ⟨st.nodes.length, ?_⟩
        rw [hs, hnodes, blobsNamed_append, blobsNamed_blob]
        rw [if_pos (rfl : n = n), hcur']
        have hfalse : ¬ ((some (GNode.blob st.nodes.length iid n (st.counts n) false) :
            Option GNode) = none ∧ n ∈ rest) := by
          intro hx
          exact Option.noConfusion hx.1
        rw [if_neg hfalse, if_pos ⟨hc, List.mem_cons_self _ rest⟩]
        simp
      · have hcur' : (processInput opN iid st a).current n = st.current n := by
          simp [processInput, hc, hna]
        refine ⟨s, ?_⟩
        rw [hs, hnodes, blobsNamed_append, blobsNamed_blob]
        rw [if_neg (fun he => hna he.symm)]
        rw [List.append_nil, hcur']
        by_cases hcn : st.current n = none
        · by_cases hnr : n ∈ rest
          · rw [if_pos ⟨hcn, hnr⟩, if_pos ⟨hcn, List.mem_cons_of_mem a hnr⟩]
          · have h1 : ¬ (st.current n = none ∧ n ∈ rest) := fun hx => hnr hx.2
            have h2 : ¬ (st.current n = none ∧ n ∈ a :: rest) := by
              intro hx
              rcases List.mem_cons.1 hx.2 with rfl | hr
              · exact hna rfl
              · exact hnr hr
            rw [if_neg h1, if_neg h2]
        · have h1 : ¬ (st.current n = none ∧ n ∈ rest) := fun hx => hcn hx.1
          have h2 : ¬ (st.current n = none ∧ n ∈ a :: rest) := fun hx => hcn hx.1
          rw [if_neg h1, if_neg h2]
    | some bb =>
      have hnodes : (processInput opN iid st a).nodes = st.nodes := by
        simp [processInput, hc]
      have hcur' : (processInput opN iid st a).current = st.current := by
        simp [processInput, hc]
      refine ⟨s, ?_⟩
      rw [hs, hnodes, hcur']
      by_cases hcn : st.current n = none
      · have hna : n ≠ a := by
          intro he
          rw [he, hc] at hcn
          cases hcn
        by_cases hnr : n ∈ rest
        · rw [if_pos ⟨hcn, hnr⟩, if_pos ⟨hcn, List.mem_cons_of_mem a hnr⟩]
        · have h1 : ¬ (st.current n = none ∧ n ∈ rest) := fun hx => hnr hx.2
          have h2 : ¬ (st.current n = none ∧ n ∈ a :: rest) := by
            intro hx
            rcases List.mem_cons.1 hx.2 with rfl | hr
            · exact hna rfl
            · exact hnr hr
          rw [if_neg h1, if_neg h2]
      · have h1 : ¬ (st.current n = none ∧ n ∈ rest) := fun hx => hcn hx.1
        have h2 : ¬ (st.current n = none ∧ n ∈ a :: rest) := fun hx => hcn hx.1
        rw [if_neg h1, if_neg h2]

/-- Default node used only to totalize lookups that are known to succeed. -/
def dfltNode : GNode := GNode.op 0 0 ""

theorem inFold_opProj (opN : GNode) (iid : Nat) (inputs : List String) (st : BuildSt) :
    (inputs.foldl (processInput opN iid) st).nodes.filterMap opProj =
      st.nodes.filterMap opProj := by
  rcases inFold_nodes opN iid inputs st with ⟨new, hn, hshape⟩
  rw [hn, List.filterMap_append]
  have : new.filterMap opProj = [] := by
    rw [List.filterMap_eq_nil_iff]
    intro g hg
    rcases hshape g hg with ⟨s, m, rfl, _⟩
    rfl
  rw [this, List.append_nil]

theorem inFold_edges (opN : GNode) (iid : Nat) :
    ∀ (inputs : List String) (st : BuildSt),
    (inputs.foldl (processInput opN iid) st).edges = st.edges ++
      inputs.map (fun m =>
        (((inputs.foldl (processInput opN iid) st).current m).getD dfltNode, opN)) := by
  intro inputs
  induction inputs with
  | nil => intro st; simp
  | cons a rest ih =>
    intro st
    rw [List.foldl_cons, ih (processInput opN iid st a)]
    have hsrc : ∃ b, (processInput opN iid st a).current a = some b ∧
        (processInput opN iid st a).edges = st.edges ++ [(b, opN)] := by
      cases hc : st.current a with
      | none =>
        refine ⟨GNode.blob st.nodes.length iid a (st.counts a) false, ?_, ?_⟩ <;>
          simp [processInput, hc]
      | some bb =>
        refine ⟨bb, ?_, ?_⟩ <;> simp [processInput, hc]
    rcases hsrc with ⟨b, hb, hedges⟩
    have hfull : (rest.foldl (processInput opN iid) (processInput opN iid st a)).current a
        = some b := inFold_curMono opN iid rest _ a b hb
    rw [hedges, List.map_cons, hfull]
    simp

theorem processOutput_counts (opN : GNode) (iid : Nat) (st : BuildSt) (a n : String) :
    (processOutput opN iid st a).counts n =
      if (st.current a).isSome ∧ n = a then st.counts a + 1 else st.counts n := by
  cases hc : st.current a with
  | none =>
    simp [processOutput, hc]
  | some bb =>
    by_cases hn : n = a <;> simp [processOutput, hc, hn]

theorem processOutput_node (opN : GNode) (iid : Nat) (st : BuildSt) (a : String) :
    (processOutput opN iid st a).nodes = st.nodes ++
      [GNode.blob st.nodes.length iid a ((processOutput opN iid st a).counts a) true] ∧
    (processOutput opN iid st a).edges = st.edges ++
      [(opN, GNode.blob st.nodes.length iid a ((processOutput opN iid st a).counts a) true)] ∧
    (∀ n, (processOutput opN iid st a).current n =
      if n = a then
        some (GNode.blob st.nodes.length iid a ((processOutput opN iid st a).counts a) true)
      else st.current n) := by
  cases hc : st.current a with
  | none =>
    refine ⟨?_, ?_, ?_⟩ <;> simp [processOutput, hc]
  | some bb =>
    refine ⟨?_, ?_, ?_⟩ <;> simp [processOutput, hc]

theorem count_zero_iff_not_mem {n : String} {l : List String} :
    l.count n = 0 ↔ n ∉ l := by
  simp [List.count_eq_zero]

theorem outFold_counts_other (opN : GNode) (iid : Nat) :
    ∀ (outputs : List String) (st : BuildSt) (n : String), n ∉ outputs →
    (outputs.foldl (processOutput opN iid) st).counts n = st.counts n := by
  intro outputs
  induction outputs with
  | nil => intro st n _; rfl
  | cons a rest ih =>
    intro st n hn
    rw [List.foldl_cons, ih _ n (fun hr => hn (List.mem_cons_of_mem a hr))]
    have hna : n ≠ a := fun he => hn (he ▸ List.mem_cons_self a rest)
    rw [processOutput_counts]
    simp [hna]

theorem outFold_cur_other (opN : GNode) (iid : Nat) :
    ∀ (outputs : List String) (st : BuildSt) (n : String), n ∉ outputs →
    (outputs.foldl (processOutput opN iid) st).current n = st.current n := by
  intro outputs
  induction outputs with
  | nil => intro st n _; rfl
  | cons a rest ih =>
    intro st n hn
    have hna : n ≠ a := fun he => hn (he ▸ List.mem_cons_self a rest)
    rw [List.foldl_cons, ih _ n (fun hr => hn (List.mem_cons_of_mem a hr))]
    rw [(processOutput_node opN iid st a).2.2 n, if_neg hna]

theorem outFold_counts_some (opN : GNode) (iid : Nat) :
    ∀ (outputs : List String) (st : BuildSt) (n : String),
    (st.current n).isSome = true →
    (outputs.foldl (processOutput opN iid) st).counts n =
      st.counts n + outputs.count n := by
  intro outputs
  induction outputs with
  | nil => intro st n _; simp
  | cons a rest ih =>
    intro st n hs
    rw [List.foldl_cons]
    by_cases hna : n = a
    · subst hna
      have hcur1 : ((processOutput opN iid st n).current n).isSome = true := by
        rw [(processOutput_node opN iid st n).2.2 n, if_pos rfl]
        rfl
      rw [ih _ n hcur1, processOutput_counts, if_pos ⟨hs, rfl⟩]
      rw [List.count_cons_self]
      omega
    · have hcur1 : ((processOutput opN iid st a).current n).isSome = true := by
        rw [(processOutput_node opN iid st a).2.2 n, if_neg hna]
        exact hs
      rw [ih _ n hcur1, processOutput_counts]
      rw [List.count_cons_of_ne hna]
      simp [hna]

theorem outFold_counts_none (opN : GNode) (iid : Nat) :
    ∀ (outputs : List String) (st : BuildSt) (n : String),
    st.current n = none → 0 < outputs.count n →
    (outputs.foldl (processOutput opN iid) st).counts n =
      st.counts n + outputs.count n - 1 := by
  intro outputs
  induction outputs with
  | nil =>
    intro st n _ h
    simp at h
  | cons a rest ih =>
    intro st n hnone hpos
    rw [List.foldl_cons]
    by_cases hna : n = a
    · subst hna
      have hcur1 : ((processOutput opN iid st n).current n).isSome = true := by
        rw [(processOutput_node opN iid st n).2.2 n, if_pos rfl]
        rfl
      have hcounts1 : (processOutput opN iid st n).counts n = st.counts n := by
        rw [processOutput_counts]
        simp [hnone]
      rw [outFold_counts_some opN iid rest _ n hcur1, hcounts1, List.count_cons_self]
      omega
    · have hcur1 : (processOutput opN iid st a).current n = none := by
        rw [(processOutput_node opN iid st a).2.2 n, if_neg hna]
        exact hnone
      have hcounts1 : (processOutput opN iid st a).counts n = st.counts n := by
        rw [processOutput_counts]
        simp [hna]
      have hpos' : 0 < rest.count n := by
        rw [List.count_cons_of_ne hna] at hpos
        exact hpos
      rw [ih _ n hcur1 hpos', hcounts1, List.count_cons_of_ne hna]

theorem outFold_cur_mem (opN : GNode) (iid : Nat) :
    ∀ (outputs : List String) (st : BuildSt) (n : String), n ∈ outputs →
    ∃ s, (outputs.foldl (processOutput opN iid) st).current n =
      some (GNode.blob s iid n
        ((outputs.foldl (processOutput opN iid) st).counts n) true) := by
  intro outputs
  induction outputs with
  | nil =>
    intro st n hn
    exact absurd hn (List.not_mem_nil n)
  | cons a rest ih =>
    intro st n hn
    rw [List.foldl_cons]
    by_cases hnr : n ∈ rest
    · exact ih _ n hnr
    · rcases List.mem_cons.1 hn with rfl | hr
      · have hcur1 : (processOutput opN iid st n).current n =
            some (GNode.blob st.nodes.length iid n
              ((processOutput opN iid st n).counts n) true) := by
          rw [(processOutput_node opN iid st n).2.2 n, if_pos rfl]
        refine ⟨st.nodes.length, ?_⟩
        rw [outFold_cur_other opN iid rest _ n hnr, hcur1,
          outFold_counts_other opN iid rest _ n hnr]
      · exact absurd hr hnr

theorem outFold_nodes (opN : GNode) (iid : Nat) :
    ∀ (outputs : List String) (st : BuildSt),
    ∃ new, (outputs.foldl (processOutput opN iid) st).nodes = st.nodes ++ new ∧
      ∀ g ∈ new, ∃ s m c, g = GNode.blob s iid m c true := by
  intro outputs
  induction outputs with
  | nil => intro st; exact ⟨[], by simp, by simp⟩
  | cons a rest ih =>
    intro st
    rw [List.foldl_cons]
    rcases ih (processOutput opN iid st a) with ⟨new', hn, hshape⟩
    refine ⟨GNode.blob st.nodes.length iid a
      ((processOutput opN iid st a).counts a) true :: new', ?_, ?_⟩
    · rw [hn, (processOutput_node opN iid st a).1]
      simp
    · intro g hg
      rcases List.mem_cons.1 hg with rfl | hg'
      · exact ⟨st.nodes.length, a, _, rfl⟩
      · exact hshape g hg'

theorem outFold_opProj (opN : GNode) (iid : Nat) (outputs : List String) (st : BuildSt) :
    (outputs.foldl (processOutput opN iid) st).nodes.filterMap opProj =
      st.nodes.filterMap opProj := by
  rcases outFold_nodes opN iid outputs st with ⟨new, hn, hshape⟩
  rw [hn, List.filterMap_append]
  have : new.filterMap opProj = [] := by
    rw [List.filterMap_eq_nil_iff]
    intro g hg
    rcases hshape g hg with ⟨s, m, c, rfl⟩
    rfl
  rw [this, List.append_nil]

theorem outFold_edges (opN : GNode) (iid : Nat) :
    ∀ (outputs : List String) (st : BuildSt),
    ∃ newE, (outputs.foldl (processOutput opN iid) st).edges = st.edges ++ newE ∧
      ∀ e ∈ newE, e.1 = opN ∧
        (∃ s m c, e.2 = GNode.blob s iid m c true) ∧
        e.2 ∈ (outputs.foldl (processOutput opN iid) st).nodes := by
  intro outputs
  induction outputs with
  | nil => intro st; exact ⟨[], by simp, by simp⟩
  | cons a rest ih =>
    intro st
    rw [List.foldl_cons]
    rcases ih (processOutput opN iid st a) with ⟨newE', he, hshape⟩
    set node := GNode.blob st.nodes.length iid a
      ((processOutput opN iid st a).counts a) true with hnode
    refine ⟨(opN, node) :: newE', ?_, ?_⟩
    · rw [he, (processOutput_node opN iid st a).2.1]
      simp
    · intro e h386
      rcases List.mem_cons.1 h386 with rfl | hg'
      · refine ⟨rfl, ⟨st.nodes.length, a, _, rfl⟩, ?_⟩
        rcases outFold_nodes opN iid rest (processOutput opN iid st a) with ⟨nw, hnw, _⟩
        show node ∈ (List.foldl (processOutput opN iid) (processOutput opN iid st a) rest).nodes
        rw [hnw, (processOutput_node opN iid st a).1, hnode]
        simp
      · exact hshape e hg'

theorem outFold_blobsNamed (opN : GNode) (iid : Nat) :
    ∀ (outputs : List String) (st : BuildSt) (n : String),
    (blobsNamed n (outputs.foldl (processOutput opN iid) st).nodes).map GNode.bcountOf =
      (blobsNamed n st.nodes).map GNode.bcountOf ++
      (if (st.current n).isSome then natRange (st.counts n + 1) (outputs.count n)
       else natRange (st.counts n) (outputs.count n)) := by
  intro outputs
  induction outputs with
  | nil => intro st n; simp [natRange]
  | cons a rest ih =>
    intro st n
    rw [List.foldl_cons, ih (processOutput opN iid st a) n]
    have hnodes1 := (processOutput_node opN iid st a).1
    have hcur1 := (processOutput_node opN iid st a).2.2
    by_cases hna : a = n
    · subst hna
      rw [hnodes1, blobsNamed_append, blobsNamed_blob, if_pos rfl]
      rw [List.map_append, hcur1 a, if_pos rfl]
      rw [List.count_cons_self]
      cases hc : st.current a with
      | none =>
        have hc1 : (processOutput opN iid st a).counts a = st.counts a := by
          rw [processOutput_counts]
          simp [hc]
        simp only [hc1, Option.isSome_some, hc, Option.isSome_none]
        simp [GNode.bcountOf, natRange]
      | some bb =>
        have hc1 : (processOutput opN iid st a).counts a = st.counts a + 1 := by
          rw [processOutput_counts]
          simp [hc]
        simp only [hc1, Option.isSome_some, hc]
        simp [GNode.bcountOf, natRange]
    · have hne : ¬ (n = a) := fun he => hna he.symm
      rw [hnodes1, blobsNamed_append, blobsNamed_blob, if_neg hna, List.append_nil]
      rw [hcur1 n, if_neg hne]
      have hc1 : (processOutput opN iid st a).counts n = st.counts n := by
        rw [processOutput_counts]
        simp [hne]
      rw [hc1, List.count_cons_of_ne hne]

theorem outOcc_append (n : String) (pre : List NodeProto) (op : NodeProto) :
    outOcc n (pre ++ [op]) = outOcc n pre + op.output.count n := by
  simp [outOcc]

theorem inOcc_append (n : String) (pre : List NodeProto) (op : NodeProto) :
    inOcc n (pre ++ [op]) = inOcc n pre + op.input.count n := by
  simp [inOcc]

theorem touched_append (n : String) (pre : List NodeProto) (op : NodeProto) :
    touched n (pre ++ [op]) =
      (touched n pre || (op.input.contains n || op.output.contains n)) := by
  simp [touched]

theorem contains_true_iff (l : List String) (a : String) :
    l.contains a = true ↔ a ∈ l := by
  simp

theorem outOcc_cons (n : String) (p : NodeProto) (rest : List NodeProto) :
    outOcc n (p :: rest) = p.output.count n + outOcc n rest := by
  simp [outOcc]

theorem inOcc_cons (n : String) (p : NodeProto) (rest : List NodeProto) :
    inOcc n (p :: rest) = p.input.count n + inOcc n rest := by
  simp [inOcc]

theorem touched_cons_false {n : String} {p : NodeProto} {rest : List NodeProto}
    (h : touched n (p :: rest) = false) :
    p.input.contains n = false ∧ p.output.contains n = false ∧
      touched n rest = false := by
  simp only [touched, List.any_cons, Bool.or_eq_false_iff] at h
  exact ⟨h.1.1, h.1.2, h.2⟩

theorem touched_false_outOcc (n : String) :
    ∀ pre : List NodeProto, touched n pre = false → outOcc n pre = 0 := by
  intro pre
  induction pre with
  | nil => intro _; rfl
  | cons p rest ih =>
    intro h
    rcases touched_cons_false h with ⟨h1, h2, h3⟩
    have hout : p.output.count n = 0 := by
      rw [count_zero_iff_not_mem]
      intro hm
      have hc := (contains_true_iff p.output n).2 hm
      rw [h2] at hc
      cases hc
    rw [outOcc_cons, hout, ih h3]

theorem touched_false_rbp (n : String) :
    ∀ pre : List NodeProto, touched n pre = false → readBeforeProd n pre = false := by
  intro pre
  induction pre with
  | nil => intro _; rfl
  | cons p rest ih =>
    intro h
    rcases touched_cons_false h with ⟨h1, h2, h3⟩
    simp only [readBeforeProd, h1, h2]
    simp only [Bool.false_eq_true, if_false]
    exact ih h3

theorem touched_false_creations (n : String) (pre : List NodeProto)
    (h : touched n pre = false) : creations n pre = 0 := by
  simp [creations, touched_false_outOcc n pre h, touched_false_rbp n pre h]

theorem touched_true_creations (n : String) :
    ∀ pre : List NodeProto, touched n pre = true → 0 < creations n pre := by
  intro pre
  induction pre with
  | nil => intro h; cases h
  | cons p rest ih =>
    intro h
    by_cases h1 : p.input.contains n = true
    · have hr : readBeforeProd n (p :: rest) = true := by
        simp only [readBeforeProd, h1]
        simp
      have : creations n (p :: rest) = outOcc n (p :: rest) + 1 := by
        simp [creations, hr]
      omega
    · have h1f : p.input.contains n = false := by simpa using h1
      by_cases h2 : p.output.contains n = true
      · have hmem : n ∈ p.output := (contains_true_iff p.output n).1 h2
        have hcnt : 0 < p.output.count n := List.count_pos_iff.2 hmem
        have : outOcc n (p :: rest) = p.output.count n + outOcc n rest :=
          outOcc_cons n p rest
        have hcre : outOcc n (p :: rest) ≤ creations n (p :: rest) := by
          simp [creations]
        omega
      · have h2f : p.output.contains n = false := by simpa using h2
        have hrest : touched n rest = true := by
          simp only [touched, List.any_cons, h1f, h2f] at h ⊢
          simpa using h
        have hih := ih hrest
        have hrbp : readBeforeProd n (p :: rest) = readBeforeProd n rest := by
          simp only [readBeforeProd, h1f, h2f]
          simp
        have hout := outOcc_cons n p rest
        have hocc0 : p.output.count n = 0 := by
          rw [count_zero_iff_not_mem]
          intro hm
          have hc := (contains_true_iff p.output n).2 hm
          rw [h2f] at hc
          cases hc
        have e1 : creations n (p :: rest) = outOcc n (p :: rest) +
            (if readBeforeProd n (p :: rest) = true then 1 else 0) := rfl
        have e2 : creations n rest = outOcc n rest +
            (if readBeforeProd n rest = true then 1 else 0) := rfl
        rw [e1, hrbp, hout, hocc0]
        rw [e2] at hih
        omega

theorem creations_zero_iff (n : String) (pre : List NodeProto) :
    creations n pre = 0 ↔ touched n pre = false := by
  constructor
  · intro h
    by_contra hx
    have := touched_true_creations n pre (by simpa using hx)
    omega
  · exact touched_false_creations n pre

theorem rbp_append_touched (n : String) :
    ∀ (pre : List NodeProto) (op : NodeProto), touched n pre = true →
    readBeforeProd n (pre ++ [op]) = readBeforeProd n pre := by
  intro pre
  induction pre with
  | nil => intro op h; cases h
  | cons p rest ih =>
    intro op h
    by_cases h1 : p.input.contains n = true
    · have hmem : n ∈ p.input := (contains_true_iff _ _).1 h1
      simp [readBeforeProd, hmem]
    · have h1f : p.input.contains n = false := by simpa using h1
      by_cases h2 : p.output.contains n = true
      · have hmem : n ∈ p.output := (contains_true_iff _ _).1 h2
        have hnin : n ∉ p.input := by
          intro hm
          have hc := (contains_true_iff p.input n).2 hm
          rw [h1f] at hc
          cases hc
        simp [readBeforeProd, hmem, hnin]
      · have h2f : p.output.contains n = false := by simpa using h2
        have hrest : touched n rest = true := by
          simp only [touched, List.any_cons, h1f, h2f] at h ⊢
          simpa using h
        show readBeforeProd n (p :: (rest ++ [op])) = readBeforeProd n (p :: rest)
        simp only [readBeforeProd, h1f, h2f]
        simp only [Bool.false_eq_true, if_false]
        exact ih op hrest

theorem rbp_append_untouched (n : String) :
    ∀ (pre : List NodeProto) (op : NodeProto), touched n pre = false →
    readBeforeProd n (pre ++ [op]) =
      (if op.input.contains n = true then true else false) := by
  intro pre
  induction pre with
  | nil =>
    intro op _
    show readBeforeProd n [op] = _
    by_cases h1 : op.input.contains n = true
    · simp [readBeforeProd, h1]
    · have h1f : op.input.contains n = false := by simpa using h1
      by_cases h2 : op.output.contains n = true
      · simp [readBeforeProd, h1f, h2]
      · have h2f : op.output.contains n = false := by simpa using h2
        simp [readBeforeProd, h1f, h2f]
  | cons p rest ih =>
    intro op h
    rcases touched_cons_false h with ⟨h1, h2, h3⟩
    show readBeforeProd n (p :: (rest ++ [op])) = _
    simp only [readBeforeProd, h1, h2]
    simp only [Bool.false_eq_true, if_false]
    exact ih op h3

theorem creations_append (n : String) (pre : List NodeProto) (op : NodeProto) :
    creations n (pre ++ [op]) = creations n pre + op.output.count n +
      (if creations n pre = 0 ∧ op.input.contains n = true then 1 else 0) := by
  by_cases ht : touched n pre = true
  · have h0 : ¬ creations n pre = 0 := by
      have := touched_true_creations n pre ht
      omega
    have hneg : ¬ (creations n pre = 0 ∧ op.input.contains n = true) := fun hx => h0 hx.1
    rw [if_neg hneg]
    have e1 : creations n (pre ++ [op]) = outOcc n (pre ++ [op]) +
        (if readBeforeProd n (pre ++ [op]) = true then 1 else 0) := rfl
    have e2 : creations n pre = outOcc n pre +
        (if readBeforeProd n pre = true then 1 else 0) := rfl
    rw [e1, e2, outOcc_append, rbp_append_touched n pre op ht]
    cases hr : readBeforeProd n pre <;> simp <;> omega
  · have ht' : touched n pre = false := by simpa using ht
    have h0 : creations n pre = 0 := touched_false_creations n pre ht'
    have hout : outOcc n pre = 0 := touched_false_outOcc n pre ht'
    have hrbp : readBeforeProd n pre = false := touched_false_rbp n pre ht'
    simp only [creations, outOcc_append, rbp_append_untouched n pre op ht', hout, hrbp]
    by_cases h1 : op.input.contains n = true
    · simp [h1]
    · simp [h1]

theorem natRange_append (s a b : Nat) :
    natRange s (a + b) = natRange s a ++ natRange (s + a) b := by
  induction a generalizing s with
  | zero => simp [natRange]
  | succ a ih =>
    have he : a + 1 + b = (a + b) + 1 := by omega
    have he2 : s + 1 + a = s + (a + 1) := by omega
    rw [he]
    show s :: natRange (s + 1) (a + b) =
      (s :: natRange (s + 1) a) ++ natRange (s + (a + 1)) b
    rw [ih (s + 1), List.cons_append, he2]

theorem natRange_length (s m : Nat) : (natRange s m).length = m := by
  induction m generalizing s with
  | zero => rfl
  | succ m ih => simp [natRange, ih]

theorem natRange_mem (s m x : Nat) : x ∈ natRange s m ↔ s ≤ x ∧ x < s + m := by
  induction m generalizing s with
  | zero => simp [natRange]
  | succ m ih =>
    show x ∈ s :: natRange (s + 1) m ↔ _
    rw [List.mem_cons, ih (s + 1)]
    omega

theorem natRange_nodup (s m : Nat) : (natRange s m).Nodup := by
  induction m generalizing s with
  | zero => exact List.nodup_nil
  | succ m ih =>
    refine List.nodup_cons.2 ⟨?_, ih (s + 1)⟩
    rw [natRange_mem]
    omega

theorem opLabels_append (i : Nat) :
    ∀ (pre : List NodeProto) (op : NodeProto) (L : List (Nat × String)) (l : String),
    opLabels i pre = some L → opNodeName op (i + pre.length) = some l →
    opLabels i (pre ++ [op]) = some (L ++ [(i + pre.length, l)]) := by
  intro pre
  induction pre generalizing i with
  | nil =>
    intro op L l hL hl
    simp only [opLabels] at hL
    cases hL
    simp only [List.length_nil, Nat.add_zero] at hl
    simp [opLabels, hl]
  | cons p rest ih =>
    intro op L l hL hl
    simp only [opLabels] at hL
    cases hp : opNodeName p i with
    | none => rw [hp] at hL; cases hL
    | some lp =>
      rw [hp] at hL
      cases hrest : opLabels (i + 1) rest with
      | none => rw [hrest] at hL; cases hL
      | some Ls =>
        rw [hrest] at hL
        cases hL
        have hl' : opNodeName op ((i + 1) + rest.length) = some l := by
          have : (i + 1) + rest.length = i + (p :: rest).length := by
            simp
            omega
          rw [this]
          exact hl
        have := ih (i + 1) op Ls l hrest hl'
        show opLabels i (p :: (rest ++ [op])) = _
        simp only [opLabels, hp, this]
        have : (i + 1) + rest.length = i + (p :: rest).length := by
          simp
          omega
        rw [this, List.cons_append]

theorem inFold_curInNodes (opN : GNode) (iid : Nat) :
    ∀ (inputs : List String) (st : BuildSt),
    (∀ m b, st.current m = some b → b ∈ st.nodes) →
    ∀ m b, (inputs.foldl (processInput opN iid) st).current m = some b →
      b ∈ (inputs.foldl (processInput opN iid) st).nodes := by
  intro inputs
  induction inputs with
  | nil => intro st h m b hb; exact h m b hb
  | cons a rest ih =>
    intro st h m b hb
    rw [List.foldl_cons] at hb ⊢
    refine ih _ ?_ m b hb
    intro m' b' hb'
    cases hc : st.current a with
    | none =>
      simp only [processInput, hc] at hb' ⊢
      by_cases hma : m' = a
      · simp only [hma, if_pos rfl] at hb'
        cases hb'
        simp
      · simp only [if_neg hma] at hb'
        exact List.mem_append_left _ (h m' b' hb')
    | some bb =>
      simp only [processInput, hc] at hb' ⊢
      exact h m' b' hb'

theorem outFold_curNamed (opN : GNode) (iid : Nat) :
    ∀ (outputs : List String) (st : BuildSt),
    (∀ m b, st.current m = some b → b.isBlobNamed m = true) →
    ∀ m b, (outputs.foldl (processOutput opN iid) st).current m = some b →
      b.isBlobNamed m = true := by
  intro outputs
  induction outputs with
  | nil => intro st h m b hb; exact h m b hb
  | cons a rest ih =>
    intro st h m b hb
    rw [List.foldl_cons] at hb
    refine ih _ ?_ m b hb
    intro m' b' hb'
    rw [(processOutput_node opN iid st a).2.2 m'] at hb'
    by_cases hma : m' = a
    · rw [if_pos hma] at hb'
      cases hb'
      simp [GNode.isBlobNamed, hma]
    · rw [if_neg hma] at hb'
      exact h m' b' hb'

theorem outFold_curInNodes (opN : GNode) (iid : Nat) :
    ∀ (outputs : List String) (st : BuildSt),
    (∀ m b, st.current m = some b → b ∈ st.nodes) →
    ∀ m b, (outputs.foldl (processOutput opN iid) st).current m = some b →
      b ∈ (outputs.foldl (processOutput opN iid) st).nodes := by
  intro outputs
  induction outputs with
  | nil => intro st h m b hb; exact h m b hb
  | cons a rest ih =>
    intro st h m b hb
    rw [List.foldl_cons] at hb ⊢
    refine ih _ ?_ m b hb
    intro m' b' hb'
    rw [(processOutput_node opN iid st a).2.2 m'] at hb'
    rw [(processOutput_node opN iid st a).1]
    by_cases hma : m' = a
    · rw [if_pos hma] at hb'
      cases hb'
      simp
    · rw [if_neg hma] at hb'
      exact List.mem_append_left _ (h m' b' hb')

theorem map_filter_blobNamed (n : String) (opN : GNode) :
    ∀ (l : List String) (f : String → GNode),
    (∀ m ∈ l, ∀ n', (f m).isBlobNamed n' = true ↔ n' = m) →
    ((l.map (fun m => (f m, opN))).filter
      (fun e => e.1.isBlobNamed n)).length = l.count n := by
  intro l
  induction l with
  | nil => intro f _; rfl
  | cons a rest ih =>
    intro f hf
    rw [List.map_cons, List.filter_cons]
    by_cases hna : a = n
    · subst hna
      have hbn : (f a).isBlobNamed a = true := (hf a (List.mem_cons_self _ _) a).2 rfl
      rw [List.count_cons_self]
      simp [hbn, ih f (fun m hm => hf m (List.mem_cons_of_mem a hm))]
    · have hbn : (f a).isBlobNamed n = false := by
        rw [Bool.eq_false_iff]
        intro hx
        exact hna ((hf a (List.mem_cons_self _ _) n).1 hx).symm
      rw [List.count_cons_of_ne (fun he => hna he.symm)]
      simp [hbn, ih f (fun m hm => hf m (List.mem_cons_of_mem a hm))]

/-- Inductive invariant of `GetPydotGraph` after processing the prefix
`pre` of the operator list. -/
structure InvP (pre : List NodeProto) (st : BuildSt) : Prop where
  wf : WF st
  counts_eq : ∀ n, st.counts n = creations n pre - 1
  cur_iff : ∀ n, (st.current n).isSome = true ↔ 0 < creations n pre
  cur_shape : ∀ n b, st.current n = some b →
    ∃ s it f, b = GNode.blob s it n (st.counts n) f ∧ it < pre.length
  vers : ∀ n, (blobsNamed n st.nodes).map GNode.bcountOf = natRange 0 (creations n pre)
  edges_rank : ∀ e ∈ st.edges, rank e.1 < rank e.2
  edges_nodes : ∀ e ∈ st.edges, e.1 ∈ st.nodes ∧ e.2 ∈ st.nodes
  edge_cnt : ∀ n, (st.edges.filter (fun e => e.1.isBlobNamed n)).length = inOcc n pre
  pure_src : ∀ n, outOcc n pre = 0 → ∀ e ∈ st.edges, e.1.isBlobNamed n = true →
    st.current n = some e.1
  ops_proj : ∃ L, opLabels 0 pre = some L ∧ st.nodes.filterMap opProj = L

theorem initSt_inv : InvP [] initSt := by
  refine ⟨⟨?_, ?_⟩, ?_, ?_, ?_, ?_, ?_, ?_, ?_, ?_, ?_⟩
  · intro m b hb; cases hb
  · intro m b hb; cases hb
  · intro n; rfl
  · intro n; simp [initSt, creations, outOcc, readBeforeProd]
  · intro n b hb; cases hb
  · intro n; rfl
  · intro e he; cases he
  · intro e he; cases he
  · intro n; rfl
  · intro n _ e he; cases he
  · exact ⟨[], rfl, rfl⟩

theorem processOp_inv (pre : List NodeProto) (st : BuildSt) (op : NodeProto)
    (hInv : InvP pre st) (st3 : BuildSt)
    (hstep : processOp st op pre.length = some st3) : InvP (pre ++ [op]) st3 := by
  rcases hlblx : opNodeName op pre.length with _ | lbl
  · rw [processOp, hlblx] at hstep
    cases hstep
  rw [processOp, hlblx] at hstep
  set iid := pre.length with hiid
  set opN : GNode := GNode.op st.nodes.length iid lbl with hopN
  set st1 : BuildSt := { st with nodes := st.nodes ++ [opN] } with hst1
  set st2 : BuildSt := op.input.foldl (processInput opN iid) st1 with hst2
  have hst3 : st3 = op.output.foldl (processOutput opN iid) st2 := by
    simp only at hstep
    exact ((Option.some.injEq _ _).mp hstep).symm
  -- basic facts about st1
  have h1cur : st1.current = st.current := rfl
  have h1counts : st1.counts = st.counts := rfl
  have h1edges : st1.edges = st.edges := rfl
  have h1nodes : st1.nodes = st.nodes ++ [opN] := rfl
  -- facts about st2 from the input-fold lemmas
  have h2counts : st2.counts = st.counts := by
    rw [hst2, inFold_counts, h1counts]
  have h2cur_mono : ∀ m b, st.current m = some b → st2.current m = some b := by
    intro m b hb
    rw [hst2]
    exact inFold_curMono opN iid op.input st1 m b (h1cur ▸ hb)
  have h2cur_char : ∀ m b, st2.current m = some b →
      st.current m = some b ∨
        (st.current m = none ∧ ∃ s, b = GNode.blob s iid m (st.counts m) false) := by
    intro m b hb
    rw [hst2] at hb
    rcases inFold_curChar opN iid op.input st1 m b hb with h' | ⟨hn, s, hbs⟩
    · exact Or.inl (h1cur ▸ h')
    · exact Or.inr ⟨h1cur ▸ hn, s, by rw [hbs, h1counts]⟩
  have h2cur_none : ∀ m, m ∉ op.input → st2.current m = st.current m := by
    intro m hm
    rw [hst2, inFold_curNone opN iid op.input st1 m hm, h1cur]
  have h2cur_some : ∀ m, m ∈ op.input → ∃ b, st2.current m = some b := by
    intro m hm
    rw [hst2]
    exact inFold_curSome opN iid op.input st1 m hm
  have h1curNamed : ∀ m b, st1.current m = some b → b.isBlobNamed m = true := by
    rw [h1cur]
    exact hInv.wf.curNamed
  have h2curNamed : ∀ m b, st2.current m = some b → b.isBlobNamed m = true := by
    rw [hst2]
    exact inFold_curNamed opN iid op.input st1 h1curNamed
  have h1curInNodes : ∀ m b, st1.current m = some b → b ∈ st1.nodes := by
    rw [h1cur, h1nodes]
    intro m b hb
    exact List.mem_append_left _ (hInv.wf.curInNodes m b hb)
  have h2curInNodes : ∀ m b, st2.current m = some b → b ∈ st2.nodes := by
    rw [hst2]
    exact inFold_curInNodes opN iid op.input st1 h1curInNodes
  have h2blobs : ∀ n, ∃ s, blobsNamed n st2.nodes = blobsNamed n st.nodes ++
      (if st.current n = none ∧ n ∈ op.input
       then [GNode.blob s iid n (st.counts n) false] else []) := by
    intro n
    rcases inFold_blobsNamed opN iid op.input st1 n with ⟨s, hs⟩
    refine ⟨s, ?_⟩
    rw [hst2, hs, h1nodes, blobsNamed_append, blobsNamed_op, List.append_nil,
      h1cur, h1counts]
  have h2edges : st2.edges = st.edges ++
      op.input.map (fun m => ((st2.current m).getD dfltNode, opN)) := by
    rw [hst2, inFold_edges opN iid op.input st1, h1edges]
  have h2nodes_app : ∃ new, st2.nodes = st.nodes ++ [opN] ++ new := by
    rcases inFold_nodes opN iid op.input st1 with ⟨new, hn, _⟩
    exact ⟨new, by rw [hst2, hn, h1nodes]⟩
  have h2proj : st2.nodes.filterMap opProj =
      st.nodes.filterMap opProj ++ [(iid, lbl)] := by
    rw [hst2, inFold_opProj, h1nodes, List.filterMap_append]
    rfl
  -- facts about st3 from the output-fold lemmas
  have h3curNamed : ∀ m b, st3.current m = some b → b.isBlobNamed m = true := by
    rw [hst3]
    exact outFold_curNamed opN iid op.output st2 h2curNamed
  have h3curInNodes : ∀ m b, st3.current m = some b → b ∈ st3.nodes := by
    rw [hst3]
    exact outFold_curInNodes opN iid op.output st2 h2curInNodes
  have h3nodes_app : ∃ new, st3.nodes = st2.nodes ++ new := by
    rcases outFold_nodes opN iid op.output st2 with ⟨new, hn, _⟩
    exact ⟨new, by rw [hst3, hn]⟩
  have h3proj : st3.nodes.filterMap opProj = st2.nodes.filterMap opProj := by
    rw [hst3, outFold_opProj]
  -- creations bookkeeping
  have hcre : ∀ n, creations n (pre ++ [op]) = creations n pre + op.output.count n +
      (if creations n pre = 0 ∧ op.input.contains n = true then 1 else 0) :=
    fun n => creations_append n pre op
  have hnone_of : ∀ n, ¬ 0 < creations n pre → st.current n = none := by
    intro n h0
    cases hcn : st.current n with
    | none => rfl
    | some b =>
      exfalso
      exact h0 ((hInv.cur_iff n).1 (by rw [hcn]; rfl))
  -- counts in st3
  have h3counts : ∀ n, st3.counts n = creations n (pre ++ [op]) - 1 := by
    intro n
    by_cases hc0 : 0 < creations n pre
    · have hsome : (st.current n).isSome = true := (hInv.cur_iff n).2 hc0
      rcases Option.isSome_iff_exists.1 hsome with ⟨b, hb⟩
      have h2some : (st2.current n).isSome = true := by
        rw [h2cur_mono n b hb]
        rfl
      have heq : st3.counts n = st2.counts n + op.output.count n := by
        rw [hst3]
        exact outFold_counts_some opN iid op.output st2 n h2some
      have hneg : ¬ (creations n pre = 0 ∧ op.input.contains n = true) := by
        intro hx
        omega
      rw [heq, h2counts, hInv.counts_eq n, hcre n, if_neg hneg]
      omega
    · have hnone : st.current n = none := hnone_of n hc0
      by_cases hin : op.input.contains n = true
      · have hmem : n ∈ op.input := (contains_true_iff _ _).1 hin
        rcases h2cur_some n hmem with ⟨b, hb⟩
        have h2some : (st2.current n).isSome = true := by rw [hb]; rfl
        have heq : st3.counts n = st2.counts n + op.output.count n := by
          rw [hst3]
          exact outFold_counts_some opN iid op.output st2 n h2some
        rw [heq, h2counts, hInv.counts_eq n, hcre n, if_pos ⟨by omega, hin⟩]
        omega
      · have hnot : n ∉ op.input := fun hm => hin ((contains_true_iff _ _).2 hm)
        have h2n : st2.current n = none := by rw [h2cur_none n hnot, hnone]
        by_cases hk : 0 < op.output.count n
        · have heq : st3.counts n = st2.counts n + op.output.count n - 1 := by
            rw [hst3]
            exact outFold_counts_none opN iid op.output st2 n h2n hk
          rw [heq, h2counts, hInv.counts_eq n, hcre n, if_neg (fun hx => hin hx.2)]
          omega
        · have hk0 : op.output.count n = 0 := by omega
          have hnout : n ∉ op.output := count_zero_iff_not_mem.1 hk0
          have heq : st3.counts n = st2.counts n := by
            rw [hst3]
            exact outFold_counts_other opN iid op.output st2 n hnout
          rw [heq, h2counts, hInv.counts_eq n, hcre n, if_neg (fun hx => hin hx.2), hk0]
          omega
  -- current projection in st3
  have h3cur_iff : ∀ n, (st3.current n).isSome = true ↔
      0 < creations n (pre ++ [op]) := by
    intro n
    by_cases hk : n ∈ op.output
    · rcases outFold_cur_mem opN iid op.output st2 n hk with ⟨s, hs⟩
      have hkpos : 0 < op.output.count n := List.count_pos_iff.2 hk
      constructor
      · intro _
        rw [hcre n]
        omega
      · intro _
        rw [hst3, hs]
        rfl
    · have hk0 : op.output.count n = 0 := count_zero_iff_not_mem.2 hk
      have h3c : st3.current n = st2.current n := by
        rw [hst3]
        exact outFold_cur_other opN iid op.output st2 n hk
      by_cases hc0 : 0 < creations n pre
      · have hsome : (st.current n).isSome = true := (hInv.cur_iff n).2 hc0
        rcases Option.isSome_iff_exists.1 hsome with ⟨b, hb⟩
        rw [h3c, h2cur_mono n b hb]
        constructor
        · intro _
          rw [hcre n]
          omega
        · intro _
          rfl
      · have hnone : st.current n = none := hnone_of n hc0
        by_cases hin : op.input.contains n = true
        · have hmem : n ∈ op.input := (contains_true_iff _ _).1 hin
          rcases h2cur_some n hmem with ⟨b, hb⟩
          rw [h3c, hb]
          constructor
          · intro _
            rw [hcre n, if_pos ⟨by omega, hin⟩]
            omega
          · intro _
            rfl
        · have hnot : n ∉ op.input := fun hm => hin ((contains_true_iff _ _).2 hm)
          rw [h3c, h2cur_none n hnot, hnone]
          constructor
          · intro hx
            cases hx
          · intro hx
            exfalso
            rw [hcre n, if_neg (fun y => hin y.2), hk0] at hx
            omega
  have h3cur_shape : ∀ n b, st3.current n = some b →
      ∃ s it f, b = GNode.blob s it n (st3.counts n) f ∧
        it < (pre ++ [op]).length := by
    intro n b hb
    have hlen : (pre ++ [op]).length = iid + 1 := by simp [hiid]
    rw [hlen]
    by_cases hk : n ∈ op.output
    · rcases outFold_cur_mem opN iid op.output st2 n hk with ⟨s, hs⟩
      rw [hst3] at hb
      rw [hs] at hb
      have hbv : b = GNode.blob s iid n
          ((op.output.foldl (processOutput opN iid) st2).counts n) true :=
        ((Option.some.injEq _ _).mp hb).symm
      refine ⟨s, iid, true, ?_, by omega⟩
      rw [hbv, hst3]
    · have h3c : st3.current n = st2.current n := by
        rw [hst3]
        exact outFold_cur_other opN iid op.output st2 n hk
      have hnout : n ∉ op.output := hk
      have hcnt3 : st3.counts n = st2.counts n := by
        rw [hst3]
        exact outFold_counts_other opN iid op.output st2 n hnout
      rw [h3c] at hb
      rcases h2cur_char n b hb with hold | ⟨hn0, s, hbs⟩
      · rcases hInv.cur_shape n b hold with ⟨s, it, f, hbs, hit⟩
        refine ⟨s, it, f, ?_, by omega⟩
        rw [hbs, hcnt3, h2counts]
      · refine ⟨s, iid, false, ?_, by omega⟩
        rw [hbs, hcnt3, h2counts]
  -- version lists
  have h3vers : ∀ n, (blobsNamed n st3.nodes).map GNode.bcountOf =
      natRange 0 (creations n (pre ++ [op])) := by
    intro n
    have hout : (blobsNamed n st3.nodes).map GNode.bcountOf =
        (blobsNamed n st2.nodes).map GNode.bcountOf ++
        (if (st2.current n).isSome then natRange (st2.counts n + 1) (op.output.count n)
         else natRange (st2.counts n) (op.output.count n)) := by
      rw [hst3]
      exact outFold_blobsNamed opN iid op.output st2 n
    rcases h2blobs n with ⟨s, hs⟩
    rw [hout, hs, List.map_append, hInv.vers n, h2counts]
    by_cases hc0 : 0 < creations n pre
    · have hsome : (st.current n).isSome = true := (hInv.cur_iff n).2 hc0
      rcases Option.isSome_iff_exists.1 hsome with ⟨b, hb⟩
      have hnotnone : ¬ (st.current n = none ∧ n ∈ op.input) := by
        intro hx
        rw [hb] at hx
        cases hx.1
      have h2some : (st2.current n).isSome = true := by
        rw [h2cur_mono n b hb]
        rfl
      rw [if_neg hnotnone, if_pos h2some, hInv.counts_eq n, List.map_nil,
        List.append_nil]
      have harr : creations n pre - 1 + 1 = creations n pre := by omega
      rw [harr]
      have hneg : ¬ (creations n pre = 0 ∧ op.input.contains n = true) := by
        intro hx
        omega
      rw [hcre n, if_neg hneg]
      have he0 : creations n pre + List.count n op.output + 0 =
          creations n pre + List.count n op.output := by omega
      rw [he0, natRange_append 0 (creations n pre) (List.count n op.output),
        Nat.zero_add]
    · have hnone : st.current n = none := hnone_of n hc0
      have hc00 : creations n pre = 0 := by omega
      have hcounts0 : st.counts n = 0 := by
        rw [hInv.counts_eq n, hc00]
      by_cases hin : op.input.contains n = true
      · have hmem : n ∈ op.input := (contains_true_iff _ _).1 hin
        rcases h2cur_some n hmem with ⟨b, hb⟩
        have h2some : (st2.current n).isSome = true := by rw [hb]; rfl
        rw [if_pos ⟨hnone, hmem⟩, if_pos h2some, hcounts0, hc00]
        rw [hcre n, if_pos ⟨hc00, hin⟩, hc00]
        simp only [natRange, List.map_cons, List.map_nil, GNode.bcountOf]
        simp [natRange]
      · have hnot : n ∉ op.input := fun hm => hin ((contains_true_iff _ _).2 hm)
        have h2n : st2.current n = none := by rw [h2cur_none n hnot, hnone]
        have h2notsome : ¬ ((st2.current n).isSome = true) := by
          rw [h2n]
          simp
        have hnotpos : ¬ (st.current n = none ∧ n ∈ op.input) := fun hx => hnot hx.2
        rw [if_neg hnotpos, if_neg h2notsome, hcounts0, hc00]
        rw [hcre n, if_neg (fun y => hin y.2), hc00]
        simp [natRange]
  -- edge decomposition of st3
  rcases (by rw [hst3]; exact outFold_edges opN iid op.output st2 :
      ∃ newE, st3.edges = st2.edges ++ newE ∧ ∀ e ∈ newE, e.1 = opN ∧
        (∃ s m c, e.2 = GNode.blob s iid m c true) ∧ e.2 ∈ st3.nodes) with
    ⟨outE, houtE, houtShape⟩
  have h3edges : st3.edges = st.edges ++
      op.input.map (fun m => ((st2.current m).getD dfltNode, opN)) ++ outE := by
    rw [houtE, h2edges]
  have hinShape : ∀ e ∈ op.input.map (fun m => ((st2.current m).getD dfltNode, opN)),
      ∃ m ∈ op.input, e = ((st2.current m).getD dfltNode, opN) := by
    intro e he
    rcases List.mem_map.1 he with ⟨m, hm, hme⟩
    exact ⟨m, hm, hme.symm⟩
  have hsrcval : ∀ m ∈ op.input, ∃ b, st2.current m = some b ∧
      (st2.current m).getD dfltNode = b := by
    intro m hm
    rcases h2cur_some m hm with ⟨b, hb⟩
    exact ⟨b, hb, by rw [hb]; rfl⟩
  have hrank_opN : rank opN = 3 * iid + 1 := rfl
  have h3rank : ∀ e ∈ st3.edges, rank e.1 < rank e.2 := by
    intro e he
    rw [h3edges] at he
    rcases List.mem_append.1 he with he' | heo
    · rcases List.mem_append.1 he' with heold | hein
      · exact hInv.edges_rank e heold
      · rcases hinShape e hein with ⟨m, hm, rfl⟩
        rcases hsrcval m hm with ⟨b, hb, hg⟩
        rw [hg]
        show rank b < rank opN
        rw [hrank_opN]
        rcases h2cur_char m b hb with hold | ⟨_, s, hbs⟩
        · rcases hInv.cur_shape m b hold with ⟨s, it, f, hbs, hit⟩
          rw [hbs]
          cases f <;> simp [rank] <;> omega
        · rw [hbs]
          simp [rank]
    · rcases houtShape e heo with ⟨he1, ⟨s, m, c, he2⟩, _⟩
      have : rank e.2 = 3 * iid + 2 := by rw [he2]; rfl
      rw [he1, hrank_opN, this]
      omega
  have hopN_in3 : opN ∈ st3.nodes := by
    rcases h3nodes_app with ⟨new3, hn3⟩
    rcases h2nodes_app with ⟨new2, hn2⟩
    rw [hn3, hn2]
    simp
  have h3edges_nodes : ∀ e ∈ st3.edges, e.1 ∈ st3.nodes ∧ e.2 ∈ st3.nodes := by
    intro e he
    rw [h3edges] at he
    rcases h3nodes_app with ⟨new3, hn3⟩
    rcases h2nodes_app with ⟨new2, hn2⟩
    rcases List.mem_append.1 he with he' | heo
    · rcases List.mem_append.1 he' with heold | hein
      · rcases hInv.edges_nodes e heold with ⟨h1, h2⟩
        constructor
        · rw [hn3, hn2]
          simp only [List.append_assoc, List.mem_append]
          exact Or.inl h1
        · rw [hn3, hn2]
          simp only [List.append_assoc, List.mem_append]
          exact Or.inl h2
      · rcases hinShape e hein with ⟨m, hm, rfl⟩
        rcases hsrcval m hm with ⟨b, hb, hg⟩
        constructor
        · show (st2.current m).getD dfltNode ∈ st3.nodes
          rw [hg, hn3]
          exact List.mem_append_left _ (h2curInNodes m b hb)
        · exact hopN_in3
    · rcases houtShape e heo with ⟨he1, _, he2n⟩
      exact ⟨by rw [he1]; exact hopN_in3, he2n⟩
  -- edge counting
  have h3cnt : ∀ n, (st3.edges.filter (fun e => e.1.isBlobNamed n)).length =
      inOcc n (pre ++ [op]) := by
    intro n
    rw [inOcc_append, h3edges, List.filter_append, List.filter_append,
      List.length_append, List.length_append, hInv.edge_cnt n]
    have hmid : ((op.input.map (fun m => ((st2.current m).getD dfltNode, opN))).filter
        (fun e => e.1.isBlobNamed n)).length = op.input.count n := by
      apply map_filter_blobNamed
      intro m hm n'
      rcases hsrcval m hm with ⟨b, hb, hg⟩
      rw [hg]
      constructor
      · intro hx
        exact isBlobNamed_eq hx (h2curNamed m b hb)
      · intro hx
        rw [hx]
        exact h2curNamed m b hb
    have houtz : (outE.filter (fun e => e.1.isBlobNamed n)).length = 0 := by
      rw [List.length_eq_zero]
      rw [List.filter_eq_nil_iff]
      intro e he
      rcases houtShape e he with ⟨he1, _, _⟩
      rw [he1]
      simp [GNode.isBlobNamed]
    rw [hmid, houtz]
    omega
  -- pure source invariant
  have h3pure : ∀ n, outOcc n (pre ++ [op]) = 0 → ∀ e ∈ st3.edges,
      e.1.isBlobNamed n = true → st3.current n = some e.1 := by
    intro n hout e he hbn
    rw [outOcc_append] at hout
    have houtpre : outOcc n pre = 0 := by omega
    have hk0 : op.output.count n = 0 := by omega
    have hnout : n ∉ op.output := count_zero_iff_not_mem.1 hk0
    have h3c : st3.current n = st2.current n := by
      rw [hst3]
      exact outFold_cur_other opN iid op.output st2 n hnout
    rw [h3edges] at he
    rcases List.mem_append.1 he with he' | heo
    · rcases List.mem_append.1 he' with heold | hein
      · have := hInv.pure_src n houtpre e heold hbn
        rw [h3c]
        exact h2cur_mono n e.1 this
      · rcases hinShape e hein with ⟨m, hm, rfl⟩
        rcases hsrcval m hm with ⟨b, hb, hg⟩
        have hnamedm : b.isBlobNamed m = true := h2curNamed m b hb
        have : (st2.current m).getD dfltNode = b := hg
        rw [this] at hbn ⊢
        have hmn : n = m := isBlobNamed_eq hbn hnamedm
        rw [h3c, hmn]
        exact hb
    · rcases houtShape e heo with ⟨he1, _, _⟩
      rw [he1] at hbn
      simp [GNode.isBlobNamed] at hbn
  -- operator projection
  have h3ops : ∃ L, opLabels 0 (pre ++ [op]) = some L ∧
      st3.nodes.filterMap opProj = L := by
    rcases hInv.ops_proj with ⟨L, hL, hproj⟩
    have hlbl0 : opNodeName op (0 + pre.length) = some lbl := by
      rw [Nat.zero_add]
      exact hlblx
    refine ⟨L ++ [(0 + pre.length, lbl)], opLabels_append 0 pre op L lbl hL hlbl0, ?_⟩
    rw [h3proj, h2proj, hproj]
    rw [Nat.zero_add]
  exact ⟨⟨h3curNamed, h3curInNodes⟩, h3counts, h3cur_iff, h3cur_shape, h3vers,
    h3rank, h3edges_nodes, h3cnt, h3pure, h3ops⟩

theorem buildAux_inv :
    ∀ (rest pre : List NodeProto) (st g : BuildSt),
    InvP pre st → buildAux st pre.length rest = some g → InvP (pre ++ rest) g := by
  intro rest
  induction rest with
  | nil =>
    intro pre st g hInv hb
    simp only [buildAux] at hb
    cases hb
    simpa using hInv
  | cons op rest ih =>
    intro pre st g hInv hb
    simp only [buildAux] at hb
    cases hp : processOp st op pre.length with
    | none =>
      rw [hp] at hb
      cases hb
    | some st' =>
      rw [hp] at hb
      have hInv' := processOp_inv pre st op hInv st' hp
      have hlen : (pre ++ [op]).length = pre.length + 1 := by simp
      have := ih (pre ++ [op]) st' g hInv' (by rw [hlen]; exact hb)
      rw [List.append_assoc] at this
      simpa using this

theorem GetPydotGraph_inv (ops : List NodeProto) (g : BuildSt)
    (h : GetPydotGraph ops = some g) : InvP ops g := by
  have := buildAux_inv ops [] initSt g initSt_inv h
  simpa using this

/-- Concatenation of a list of strings, used to describe the shape of an
operator label. -/
def strJoin : List String → String
  | [] => ""
  | a :: l => a ++ strJoin l

theorem foldl_append_str (f : Nat × String → String) :
    ∀ (l : List (Nat × String)) (b : String),
    l.foldl (fun acc p => acc ++ f p) b = b ++ strJoin (l.map f) := by
  intro l
  induction l with
  | nil =>
    intro b
    show b = b ++ strJoin []
    show b = b ++ ""
    exact (String.append_empty b).symm
  | cons a l ih =>
    intro b
    rw [List.foldl_cons, ih (b ++ f a), List.map_cons]
    show b ++ f a ++ strJoin (l.map f) = b ++ (f a ++ strJoin (l.map f))
    exact String.append_assoc b (f a) (strJoin (l.map f))

/-- The input/output lines appended to an operator label, one line per
name in declaration order, as produced by the two loops in
`ReallyGetOpNode`. -/
def ioLines (tag : String) (names : List String) : String :=
  strJoin (names.enum.map (fun p => tag ++ pyStr p.1 ++ " " ++ p.2))

theorem opNodeName_structure (op : NodeProto) (i : Nat) (l : String)
    (h : opNodeName op i = some l) :
    (op.name ≠ "" →
      l = op.name ++ "/" ++ op.op_type ++ " (op#" ++ pyStr i ++ ")" ++
        ioLines "\n input" op.input ++ ioLines "\n output" op.output) ∧
    (op.name = "" → ∃ t, timingFor i = some t ∧
      l = op.op_type ++ " (op#" ++ pyStr i ++ ") [" ++ pyStr t ++ " ns]" ++
        ioLines "\n input" op.input ++ ioLines "\n output" op.output) := by
  constructor
  · intro hname
    rw [opNodeName, if_pos hname] at h
    simp only [Option.map_some'] at h
    rw [foldl_append_str, foldl_append_str] at h
    rw [← (Option.some.injEq _ _).mp h, ioLines, ioLines]
  · intro hname
    rw [opNodeName, if_neg (by simp [hname])] at h
    cases ht : timingFor i with
    | none =>
      rw [ht] at h
      cases h
    | some t =>
      rw [ht] at h
      simp only [Option.map_some'] at h
      refine ⟨t, rfl, ?_⟩
      rw [foldl_append_str, foldl_append_str] at h
      rw [← (Option.some.injEq _ _).mp h, ioLines, ioLines]

theorem mem_pyReplaceChar {c : Char} {s : String} {a b : Char}
    (h : c ∈ (pyReplaceChar s a b).data) (hba : b ≠ a) : c ≠ a := by
  simp only [pyReplaceChar, List.mem_map] at h
  rcases h with ⟨c', _, hc'⟩
  by_cases he : c' = a
  · rw [if_pos he] at hc'
    rw [← hc']
    exact hba
  · rw [if_neg he] at hc'
    rw [← hc']
    exact he

theorem not_mem_pyDeleteChar_self (s : String) (a : Char) :
    a ∉ (pyDeleteChar s a).data := by
  intro h
  simp only [pyDeleteChar, List.mem_filter] at h
  have := h.2
  simp at this

theorem mem_pyDeleteChar_sub {c : Char} {s : String} {a : Char}
    (h : c ∈ (pyDeleteChar s a).data) : c ∈ s.data := by
  simp only [pyDeleteChar, List.mem_filter] at h
  exact h.1

theorem takeWhile_digits_append (ds : List Char) (hds : ∀ c ∈ ds, c.isDigit = true)
    (c : Char) (hc : c.isDigit = false) (t : List Char) :
    (ds ++ c :: t).takeWhile Char.isDigit = ds := by
  induction ds with
  | nil =>
    simp [List.takeWhile_cons, hc]
  | cons d ds ih =>
    have hd : d.isDigit = true := hds d (List.mem_cons_self _ _)
    rw [List.cons_append, List.takeWhile_cons, hd]
    simp only [if_pos]
    rw [ih (fun c' hc' => hds c' (List.mem_cons_of_mem d hc'))]

theorem pyStr_data (n : Nat) : (pyStr n).data = natDigs n := rfl

theorem digits_cancel {i j : Nat} {c : Char} (hc : c.isDigit = false)
    {t t' : List Char}
    (h : natDigs i ++ c :: t = natDigs j ++ c :: t') : i = j := by
  have h1 := congrArg (List.takeWhile Char.isDigit) h
  rw [takeWhile_digits_append (natDigs i) (natDigs_all_digit i) c hc,
    takeWhile_digits_append (natDigs j) (natDigs_all_digit j) c hc] at h1
  exact natDigs_injective h1

theorem opNodeName_index_inj (r : NodeProto) (i j : Nat) (hij : i ≠ j)
    (li lj : String) (hi : opNodeName r i = some li)
    (hj : opNodeName r j = some lj) : li ≠ lj := by
  intro heq
  rcases opNodeName_structure r i li hi with ⟨hin, hiu⟩
  rcases opNodeName_structure r j lj hj with ⟨hjn, hju⟩
  by_cases hname : r.name = ""
  · rcases hiu hname with ⟨ti, _, hli⟩
    rcases hju hname with ⟨tj, _, hlj⟩
    rw [hli, hlj] at heq
    have hd := congrArg String.data heq
    simp only [String.data_append, pyStr_data, List.append_assoc,
      List.cons_append, List.nil_append] at hd
    have h1 := List.append_cancel_left hd
    simp only [List.cons.injEq, true_and] at h1
    exact hij (digits_cancel (by decide) h1)
  · have hli := hin hname
    have hlj := hjn hname
    rw [hli, hlj] at heq
    have hd := congrArg String.data heq
    simp only [String.data_append, pyStr_data, List.append_assoc,
      List.cons_append, List.nil_append] at hd
    have h1 := List.append_cancel_left hd
    simp only [List.cons.injEq, true_and] at h1
    have h2 := List.append_cancel_left h1
    simp only [List.cons.injEq, true_and] at h2
    exact hij (digits_cancel (by decide) h2)

theorem opLabels_length (i : Nat) :
    ∀ (xs : List NodeProto) (L : List (Nat × String)),
    opLabels i xs = some L → L.length = xs.length := by
  intro xs
  induction xs generalizing i with
  | nil =>
    intro L h
    simp only [opLabels] at h
    cases h
    rfl
  | cons p rest ih =>
    intro L h
    simp only [opLabels] at h
    cases hp : opNodeName p i with
    | none => rw [hp] at h; cases h
    | some lp =>
      rw [hp] at h
      cases hrest : opLabels (i + 1) rest with
      | none => rw [hrest] at h; cases h
      | some Ls =>
        rw [hrest] at h
        cases h
        simp [ih (i + 1) Ls hrest]

theorem opLabels_mem (i : Nat) :
    ∀ (xs : List NodeProto) (L : List (Nat × String)) (a : Nat) (l : String),
    opLabels i xs = some L → (a, l) ∈ L →
    ∃ k r, xs.get? k = some r ∧ a = i + k ∧ opNodeName r a = some l := by
  intro xs
  induction xs generalizing i with
  | nil =>
    intro L a l h hm
    simp only [opLabels] at h
    cases h
    cases hm
  | cons p rest ih =>
    intro L a l h hm
    simp only [opLabels] at h
    cases hp : opNodeName p i with
    | none => rw [hp] at h; cases h
    | some lp =>
      rw [hp] at h
      cases hrest : opLabels (i + 1) rest with
      | none => rw [hrest] at h; cases h
      | some Ls =>
        rw [hrest] at h
        cases h
        rcases List.mem_cons.1 hm with hm1 | hm2
        · cases hm1
          exact ⟨0, p, rfl, by omega, hp⟩
        · rcases ih (i + 1) Ls a l hrest hm2 with ⟨k, r, hk, ha, hop⟩
          exact ⟨k + 1, r, hk, by omega, hop⟩

/-- The Conv/Relu operator list of the specification's worked scenario. -/
def convReluOps : List NodeProto :=
  [⟨"", "Conv", ["X", "W"], ["Y"], ""⟩, ⟨"relu1", "Relu", ["Y"], ["Y"], ""⟩]

/-- Operator list whose blob identities collide: version 10 of `a` and
version 0 of `a1` both get the internal identity `"a10"`. -/
def collideOps : List NodeProto :=
  [⟨"x", "T", [], ["a", "a", "a", "a", "a", "a", "a", "a", "a", "a", "a", "a1"], ""⟩]

/-- Operator list with a single consumer of an external input. -/
def readerOps : List NodeProto := [⟨"n", "T", ["X"], [], ""⟩]

/-- Operator list with a duplicated output declaration. -/
def dupOutOps : List NodeProto := [⟨"w", "T", [], ["Y", "Y"], ""⟩]

/-- Two distinct operator records engineered to receive identical labels. -/
def collideLabelOps : List NodeProto :=
  [⟨"n", "t", [], ["q (op#1)\n output0 r"], ""⟩,
   ⟨"n", "t (op#0)\n output0 q", [], ["r"], ""⟩]

/-- Two operators with completely identical records. -/
def twinOps : List NodeProto :=
  [⟨"n", "T", ["X"], ["Y"], ""⟩, ⟨"n", "T", ["X"], ["Y"], ""⟩]

/-- The graph a successful build produces, totalized for concrete runs. -/
def bG (ops : List NodeProto) : BuildSt := (GetPydotGraph ops).getD initSt

/-- The annotation of the specification's sanitizer scenario,
`<script>"hi"</script>`. -/
def scriptAnnotation : String :=
  ⟨['<', 's', 'c', 'r', 'i', 'p', 't', '>', dqChar, 'h', 'i', dqChar,
    '<', '/', 's', 'c', 'r', 'i', 'p', 't', '>']⟩

/-- C1: the claim says the timing lookup never goes out of bounds and the
label of an unnamed operator is always produced, with timing 0 past the
end of the list.  The code guards the access with `op_id <= len(timings)`,
so an unnamed operator at zero-based index 66 — the length of the
66-element list — evaluates `timings[66]` and raises `IndexError`
(`none` in the embedding); indices 0..65 read the table and indices ≥ 67
fall back to 0, as the claim describes. -/
theorem c1_timing_lookup_out_of_bounds :
    timings.length = 66 ∧
    timingFor 66 = none ∧
    opNodeName ⟨"", "Conv", [], [], ""⟩ 66 = none ∧
    opNodeName ⟨"", "Conv", [], [], ""⟩ 65 = some "Conv (op#65) [347594 ns]" ∧
    opNodeName ⟨"", "Conv", [], [], ""⟩ 67 = some "Conv (op#67) [0 ns]" ∧
    GetPydotGraph (List.replicate 67 ⟨"", "Conv", [], [], ""⟩) = none :=
  ⟨rfl, rfl, rfl, by decide, by decide, rfl⟩

/-- C7: escaping a name with `_escape_label` (`json.dumps`) and parsing
the result back as a JSON string literal recovers the name exactly, for
every name, including quotes, backslashes and non-ASCII characters. -/
theorem c7_escape_roundtrip (s : String) :
    parseStringLiteral (escape_label s) = some s :=
  parseStringLiteral_escape_label s

/-- C8: the docstring link target is the JSON-escaped annotation with all
double quotes turned into single quotes and all angle brackets deleted,
wrapped in a `javascript:alert(...)` pseudo-URL; consequently no angle
bracket and no double quote survives for any annotation, in particular for
`<script>"hi"</script>`. -/
theorem c8_docstring_sanitized :
    (∀ s : String,
      '<' ∉ (_form_and_sanitize_docstring s).data ∧
      '>' ∉ (_form_and_sanitize_docstring s).data ∧
      dqChar ∉ (_form_and_sanitize_docstring s).data ∧
      ∃ mid, _form_and_sanitize_docstring s = "javascript:alert(" ++ mid ++ ")") ∧
    _form_and_sanitize_docstring scriptAnnotation =
      "javascript:alert(" ++
        ⟨[sqChar, 's', 'c', 'r', 'i', 'p', 't', bsChar, sqChar, 'h', 'i',
          bsChar, sqChar, '/', 's', 'c', 'r', 'i', 'p', 't', sqChar]⟩ ++ ")" := by
  constructor
  · intro s
    have hdata : (_form_and_sanitize_docstring s).data =
        "javascript:alert(".data ++
        (pyDeleteChar (pyDeleteChar (pyReplaceChar (escape_label s) dqChar sqChar)
          '<') '>').data ++ ")".data := by
      show (("javascript:alert(" ++ _ ) ++ ")").data = _
      rw [String.data_append, String.data_append]
    refine ⟨?_, ?_, ?_, ⟨_, rfl⟩⟩
    · intro hm
      rw [hdata] at hm
      rcases List.mem_append.1 hm with hm1 | hm1
      · rcases List.mem_append.1 hm1 with hm2 | hm2
        · exact absurd hm2 (by decide)
        · have := mem_pyDeleteChar_sub hm2
          exact not_mem_pyDeleteChar_self _ '<' this
      · exact absurd hm1 (by decide)
    · intro hm
      rw [hdata] at hm
      rcases List.mem_append.1 hm with hm1 | hm1
      · rcases List.mem_append.1 hm1 with hm2 | hm2
        · exact absurd hm2 (by decide)
        · exact not_mem_pyDeleteChar_self _ '>' hm2
      · exact absurd hm1 (by decide)
    · intro hm
      rw [hdata] at hm
      rcases List.mem_append.1 hm with hm1 | hm1
      · rcases List.mem_append.1 hm1 with hm2 | hm2
        · exact absurd hm2 (by decide)
        · have h1 := mem_pyDeleteChar_sub hm2
          have h2 := mem_pyDeleteChar_sub h1
          exact absurd rfl (mem_pyReplaceChar h2 (by decide))
      · exact absurd hm1 (by decide)
  · decide

/-- C6 counterexample: the claim writes the per-input line as
`"\ninput<i> <name>"`, but the code concatenates `'\n input'`, so the
actual label of the scenario's `relu1` operator has a space between the
newline and the word, and differs from the claimed string. -/
theorem c6_label_format_cex :
    opNodeName ⟨"relu1", "Relu", ["Y"], ["Y"], ""⟩ 1 =
      some "relu1/Relu (op#1)\n input0 Y\n output0 Y" ∧
    ("relu1/Relu (op#1)\n input0 Y\n output0 Y" : String) ≠
      "relu1/Relu (op#1)\ninput0 Y\noutput0 Y" :=
  ⟨rfl, by decide⟩

/-- C6 (amended): whenever the labeler produces a label, its head is
`"<name>/<op_type> (op#<i>)"` for a named record and
`"<op_type> (op#<i>) [<timing> ns]"` for an unnamed one, followed by one
line `"\n input<i> <input_name>"` per declared input and one line
`"\n output<i> <output_name>"` per declared output, in declaration order
(note the space after each newline). -/
theorem c6_label_structure (op : NodeProto) (i : Nat) (l : String)
    (h : opNodeName op i = some l) :
    (op.name ≠ "" →
      l = op.name ++ "/" ++ op.op_type ++ " (op#" ++ pyStr i ++ ")" ++
        ioLines "\n input" op.input ++ ioLines "\n output" op.output) ∧
    (op.name = "" → ∃ t, timingFor i = some t ∧
      l = op.op_type ++ " (op#" ++ pyStr i ++ ") [" ++ pyStr t ++ " ns]" ++
        ioLines "\n input" op.input ++ ioLines "\n output" op.output) :=
  opNodeName_structure op i l h

/-- Witness for the amended C6 at the scenario's `relu1` operator. -/
theorem c6_witness :
    "relu1/Relu (op#1)\n input0 Y\n output0 Y" =
      "relu1" ++ "/" ++ "Relu" ++ " (op#" ++ pyStr 1 ++ ")" ++
        ioLines "\n input" ["Y"] ++ ioLines "\n output" ["Y"] :=
  (c6_label_structure ⟨"relu1", "Relu", ["Y"], ["Y"], ""⟩ 1
    "relu1/Relu (op#1)\n input0 Y\n output0 Y" rfl).1 (by decide)

/-- C2 counterexample: in the graph built from `collideOps`, the eleventh
version of blob `a` and version 0 of blob `a1` are distinct BlobVersions
yet share the internal dot identity `_escape_label("a10")`. -/
theorem c2_blob_identity_collision_cex :
    GetPydotGraph collideOps = some (bG collideOps) ∧
    GNode.blob 11 0 "a" 10 true ∈ (bG collideOps).nodes ∧
    GNode.blob 12 0 "a1" 0 true ∈ (bG collideOps).nodes ∧
    ¬ ("a" = "a1" ∧ (10 : Nat) = 0) ∧
    (GNode.blob 11 0 "a" 10 true).dotName = (GNode.blob 12 0 "a1" 0 true).dotName :=
  ⟨rfl, by decide, by decide, by decide, by decide⟩

/-- C2 (amended): two blob nodes carrying the same blob name but different
version counters always receive distinct internal identities; collisions
are only possible between different blob names. -/
theorem c2_same_name_version_identities_distinct (ops : List NodeProto)
    (g : BuildSt) (h : GetPydotGraph ops = some g)
    (s1 i1 c1 s2 i2 c2 : Nat) (f1 f2 : Bool) (n : String)
    (h1 : GNode.blob s1 i1 n c1 f1 ∈ g.nodes)
    (h2 : GNode.blob s2 i2 n c2 f2 ∈ g.nodes) (hc : c1 ≠ c2) :
    (GNode.blob s1 i1 n c1 f1).dotName ≠ (GNode.blob s2 i2 n c2 f2).dotName := by
  intro he
  apply hc
  have hesc : escape_label (n ++ pyStr c1) = escape_label (n ++ pyStr c2) := he
  have hap := escape_label_injective hesc
  have hdata := congrArg String.data hap
  simp only [String.data_append, pyStr_data] at hdata
  exact natDigs_injective (List.append_cancel_left hdata)

/-- Witness for the amended C2: versions 0 and 1 of blob `a` in the
collision example graph have distinct identities. -/
theorem c2_witness :
    (GNode.blob 1 0 "a" 0 true).dotName ≠ (GNode.blob 2 0 "a" 1 true).dotName :=
  c2_same_name_version_identities_distinct collideOps (bG collideOps) rfl
    1 0 0 2 0 1 true true "a" (by decide) (by decide) (by decide)

/-- C3 counterexample: in the graph built from `readerOps`, the operator
node is created at traversal position 0 and the fresh input blob node for
`X` at position 1, yet the edge points from the blob node to the operator
node — the edge's target was created at an earlier traversal position
than its source. -/
theorem c3_edge_order_cex :
    GetPydotGraph readerOps = some (bG readerOps) ∧
    (bG readerOps).nodes =
      [GNode.op 0 0 "n/T (op#0)\n input0 X", GNode.blob 1 0 "X" 0 false] ∧
    (GNode.blob 1 0 "X" 0 false, GNode.op 0 0 "n/T (op#0)\n input0 X") ∈
      (bG readerOps).edges ∧
    (GNode.op 0 0 "n/T (op#0)\n input0 X").serialOf <
      (GNode.blob 1 0 "X" 0 false).serialOf :=
  ⟨rfl, by decide, by decide, by decide⟩

theorem rank_iterOf_bounds (a : GNode) :
    3 * a.iterOf ≤ rank a ∧ rank a ≤ 3 * a.iterOf + 2 := by
  cases a with
  | op s i l =>
    simp [rank, GNode.iterOf]
  | blob s i n c f =>
    cases f <;> simp [rank, GNode.iterOf] <;> omega

theorem transGen_rank_lt (g : BuildSt)
    (hE : ∀ e ∈ g.edges, rank e.1 < rank e.2) :
    ∀ u v : GNode, Relation.TransGen (fun a b => (a, b) ∈ g.edges) u v →
      rank u < rank v := by
  intro u v h
  induction h with
  | single h' => exact hE _ h'
  | tail _ h' ih => exact lt_trans ih (hE _ h')

/-- C3 (amended): within one iteration the operator node is created before
its fresh input blob nodes, so the traversal-position ordering of the
claim fails; what holds is that no edge points from a node of a later
operator iteration to one of an earlier iteration, and that the graph over
node-creation events contains no directed cycle. -/
theorem c3_iteration_order_acyclic (ops : List NodeProto) (g : BuildSt)
    (h : GetPydotGraph ops = some g) :
    (∀ e ∈ g.edges, e.1.iterOf ≤ e.2.iterOf) ∧
    ∀ u : GNode, ¬ Relation.TransGen (fun a b => (a, b) ∈ g.edges) u u := by
  have hInv := GetPydotGraph_inv ops g h
  constructor
  · intro e he
    have hr := hInv.edges_rank e he
    have h1 := rank_iterOf_bounds e.1
    have h2 := rank_iterOf_bounds e.2
    omega
  · intro u htg
    have := transGen_rank_lt g hInv.edges_rank u u htg
    omega

/-- Witness for the amended C3 on the scenario graph. -/
theorem c3_witness :
    (∀ e ∈ (bG convReluOps).edges, e.1.iterOf ≤ e.2.iterOf) ∧
    ¬ Relation.TransGen (fun a b => (a, b) ∈ (bG convReluOps).edges)
      (GNode.blob 1 0 "X" 0 false) (GNode.blob 1 0 "X" 0 false) := by
  have := c3_iteration_order_acyclic convReluOps (bG convReluOps) rfl
  exact ⟨this.1, this.2 _⟩

/-- C4 counterexample: blob `Y` is produced (declared as an output) by
exactly one operator and never read before production, yet two blob node
identities — versions 0 and 1 — are created for it, because that one
operator declares the output twice. -/
theorem c4_duplicate_output_cex :
    GetPydotGraph dupOutOps = some (bG dupOutOps) ∧
    (dupOutOps.map (fun op => if op.output.contains "Y" then 1 else 0)).sum = 1 ∧
    readBeforeProd "Y" dupOutOps = false ∧
    (blobsNamed "Y" (bG dupOutOps).nodes).map GNode.bcountOf = [0, 1] ∧
    ((blobsNamed "Y" (bG dupOutOps).nodes).map GNode.dotName).Nodup :=
  ⟨rfl, by decide, rfl, by decide, by decide⟩

/-- C4 (amended): counting output occurrences rather than producing
operators, the blob nodes created for a name carry exactly the version
counters 0, 1, …, K-1 in creation order, where K is the number of output
occurrences of the name plus one if the name is first touched as an input
(read before its first production); in particular each production after
the first registration increments the counter by one, and all the
identities created for one name are pairwise distinct. -/
theorem c4_blob_version_progression (ops : List NodeProto) (n : String)
    (g : BuildSt) (h : GetPydotGraph ops = some g) :
    (blobsNamed n g.nodes).map GNode.bcountOf = natRange 0 (creations n ops) ∧
    ((blobsNamed n g.nodes).map GNode.dotName).Nodup := by
  have hInv := GetPydotGraph_inv ops g h
  refine ⟨hInv.vers n, ?_⟩
  have hshape : ∀ x ∈ blobsNamed n g.nodes,
      x.dotName = escape_label (n ++ pyStr x.bcountOf) := by
    intro x hx
    rcases List.mem_filter.1 hx with ⟨_, hbn⟩
    cases x with
    | op s i l => simp [GNode.isBlobNamed] at hbn
    | blob s i m c f =>
      simp only [GNode.isBlobNamed, decide_eq_true_eq] at hbn
      rw [hbn]
      rfl
  have hmap : (blobsNamed n g.nodes).map GNode.dotName =
      ((blobsNamed n g.nodes).map GNode.bcountOf).map
        (fun c => escape_label (n ++ pyStr c)) := by
    rw [List.map_map]
    exact List.map_congr_left hshape
  rw [hmap, hInv.vers n]
  refine List.Nodup.map ?_ (natRange_nodup 0 _)
  intro c1 c2 hce
  have hap := escape_label_injective hce
  have hdata := congrArg String.data hap
  simp only [String.data_append, pyStr_data] at hdata
  exact natDigs_injective (List.append_cancel_left hdata)

/-- Witness for the amended C4: in the scenario graph, blob `Y` is
produced twice and not read first, and its two versions are 0 and 1 with
distinct identities. -/
theorem c4_witness :
    (blobsNamed "Y" (bG convReluOps).nodes).map GNode.bcountOf =
      natRange 0 (creations "Y" convReluOps) ∧
    ((blobsNamed "Y" (bG convReluOps).nodes).map GNode.dotName).Nodup :=
  c4_blob_version_progression convReluOps "Y" (bG convReluOps) rfl

theorem rbp_of_pure (n : String) :
    ∀ ops : List NodeProto, outOcc n ops = 0 → 0 < inOcc n ops →
    readBeforeProd n ops = true := by
  intro ops
  induction ops with
  | nil =>
    intro _ h
    simp [inOcc] at h
  | cons p rest ih =>
    intro hout hin
    rw [outOcc_cons] at hout
    rw [inOcc_cons] at hin
    by_cases h1 : p.input.contains n = true
    · have hmem : n ∈ p.input := (contains_true_iff _ _).1 h1
      simp [readBeforeProd, hmem]
    · have h1f : p.input.contains n = false := by simpa using h1
      have h2f : p.output.contains n = false := by
        rw [Bool.eq_false_iff]
        intro hx
        have := List.count_pos_iff.2 ((contains_true_iff _ _).1 hx)
        omega
      have hcin : p.input.count n = 0 := by
        rw [count_zero_iff_not_mem]
        intro hm
        have hc := (contains_true_iff p.input n).2 hm
        rw [h1f] at hc
        cases hc
      simp only [readBeforeProd, h1f, h2f]
      simp only [Bool.false_eq_true, if_false]
      exact ih (by omega) (by omega)

/-- C5: a blob name that is read as an input somewhere but never declared
as an output gets exactly one blob node (version 0), every edge whose
source is a blob node of that name uses that single node, and the number
of such edges equals the number of input references to the name. -/
theorem c5_pure_input_single_node (ops : List NodeProto) (n : String)
    (g : BuildSt) (h : GetPydotGraph ops = some g) (hout : outOcc n ops = 0)
    (hin : 0 < inOcc n ops) :
    ∃ b, blobsNamed n g.nodes = [b] ∧ b.bcountOf = 0 ∧
      (∀ e ∈ g.edges, e.1.isBlobNamed n = true → e.1 = b) ∧
      (g.edges.filter (fun e => e.1.isBlobNamed n)).length = inOcc n ops := by
  have hInv := GetPydotGraph_inv ops g h
  have hrbp : readBeforeProd n ops = true := rbp_of_pure n ops hout hin
  have hcre : creations n ops = 1 := by
    simp [creations, hout, hrbp]
  have hvers := hInv.vers n
  rw [hcre] at hvers
  have hone : ∃ b, blobsNamed n g.nodes = [b] ∧ b.bcountOf = 0 := by
    cases hbl : blobsNamed n g.nodes with
    | nil =>
      rw [hbl] at hvers
      cases hvers
    | cons b t =>
      rw [hbl, List.map_cons] at hvers
      have h1 : b.bcountOf = 0 := by
        have := congrArg (fun l => l.headD 0) hvers
        simpa [natRange] using this
      have h2 : t = [] := by
        have := congrArg List.length hvers
        simp [natRange_length, natRange] at this
        exact List.length_eq_zero.1 (by simpa using this)
      exact ⟨b, by rw [h2], h1⟩
  rcases hone with ⟨b, hb1, hb0⟩
  refine ⟨b, hb1, hb0, ?_, hInv.edge_cnt n⟩
  intro e he hbn
  have hcur := hInv.pure_src n hout e he hbn
  have hmem := hInv.wf.curInNodes n e.1 hcur
  have hnamed := hInv.wf.curNamed n e.1 hcur
  have : e.1 ∈ blobsNamed n g.nodes := List.mem_filter.2 ⟨hmem, hnamed⟩
  rw [hb1] at this
  simpa using this

/-- Witness for C5 at blob `X` of the scenario graph. -/
theorem c5_witness :
    ∃ b, blobsNamed "X" (bG convReluOps).nodes = [b] ∧ b.bcountOf = 0 ∧
      (∀ e ∈ (bG convReluOps).edges, e.1.isBlobNamed "X" = true → e.1 = b) ∧
      ((bG convReluOps).edges.filter
        (fun e => e.1.isBlobNamed "X")).length = inOcc "X" convReluOps :=
  c5_pure_input_single_node convReluOps "X" (bG convReluOps) rfl
    (by decide) (by decide)

/-- C9: processing an operator's input list never changes the version
counters (the reads are read-only), and when a name occurs at least twice
among the declared inputs, every occurrence resolves to one and the same
current version node of that name — the node registered for the name
before the operator, when there was one. -/
theorem c9_duplicate_inputs_read_only (opN : GNode) (iid : Nat) (st : BuildSt)
    (inputs : List String) (n : String) (hdup : 2 ≤ inputs.count n) :
    (inputs.foldl (processInput opN iid) st).counts = st.counts ∧
    ∃ b, (inputs.foldl (processInput opN iid) st).current n = some b ∧
      (∀ b0, st.current n = some b0 → b = b0) ∧
      (inputs.foldl (processInput opN iid) st).edges = st.edges ++
        inputs.map (fun m =>
          (((inputs.foldl (processInput opN iid) st).current m).getD dfltNode, opN)) ∧
      ∀ m ∈ inputs, m = n →
        (((inputs.foldl (processInput opN iid) st).current m).getD dfltNode, opN) =
          (b, opN) := by
  refine ⟨inFold_counts opN iid inputs st, ?_⟩
  have hmem : n ∈ inputs := by
    by_contra hx
    rw [← count_zero_iff_not_mem] at hx
    omega
  rcases inFold_curSome opN iid inputs st n hmem with ⟨b, hb⟩
  refine ⟨b, hb, ?_, inFold_edges opN iid inputs st, ?_⟩
  · intro b0 hb0
    have := inFold_curMono opN iid inputs st n b0 hb0
    rw [hb] at this
    exact (Option.some.injEq _ _).mp this
  · intro m hm hmn
    subst hmn
    rw [hb]
    rfl

/-- Witness for C9: an operator reading blob `X` twice. -/
theorem c9_witness :
    (["X", "X"].foldl (processInput (GNode.op 0 0 "L") 0) initSt).counts =
      initSt.counts ∧
    ∃ b, (["X", "X"].foldl (processInput (GNode.op 0 0 "L") 0) initSt).current "X" =
        some b ∧
      (∀ b0, initSt.current "X" = some b0 → b = b0) ∧
      (["X", "X"].foldl (processInput (GNode.op 0 0 "L") 0) initSt).edges =
        initSt.edges ++ ["X", "X"].map (fun m =>
          (((["X", "X"].foldl (processInput (GNode.op 0 0 "L") 0) initSt).current
            m).getD dfltNode, GNode.op 0 0 "L")) ∧
      ∀ m ∈ ["X", "X"], m = "X" →
        (((["X", "X"].foldl (processInput (GNode.op 0 0 "L") 0) initSt).current
          m).getD dfltNode, GNode.op 0 0 "L") = (b, GNode.op 0 0 "L") :=
  c9_duplicate_inputs_read_only (GNode.op 0 0 "L") 0 initSt ["X", "X"] "X"
    (by decide)

/-- C10 counterexample: two operators with distinct records (different
types and outputs) receive the very same label, so by dot-name identity
they are merged into one graph node — the labels are not pairwise
distinct for arbitrary operator lists. -/
theorem c10_label_collision_cex :
    GetPydotGraph collideLabelOps = some (bG collideLabelOps) ∧
    collideLabelOps.get? 0 ≠ collideLabelOps.get? 1 ∧
    (bG collideLabelOps).nodes.filterMap opProj =
      [(0, "n/t (op#0)\n output0 q (op#1)\n output0 r"),
       (1, "n/t (op#0)\n output0 q (op#1)\n output0 r")] :=
  ⟨rfl, by decide, by decide⟩

/-- C10 (amended): the builder creates exactly one operator node per
operator record, and two operators whose records are completely identical
(same name, type, inputs, outputs) always get distinct labels, because the
label embeds the operator's own index in its `(op#<index>)` fragment; for
operators with different records, label collisions are possible. -/
theorem c10_identical_records_not_merged (ops : List NodeProto) (g : BuildSt)
    (h : GetPydotGraph ops = some g) :
    (g.nodes.filterMap opProj).length = ops.length ∧
    ∀ i j r li lj, i ≠ j → ops.get? i = some r → ops.get? j = some r →
      (i, li) ∈ g.nodes.filterMap opProj → (j, lj) ∈ g.nodes.filterMap opProj →
      li ≠ lj := by
  have hInv := GetPydotGraph_inv ops g h
  rcases hInv.ops_proj with ⟨L, hL, hproj⟩
  constructor
  · rw [hproj]
    exact opLabels_length 0 ops L hL
  · intro i j r li lj hij hi hj hmi hmj
    rw [hproj] at hmi hmj
    rcases opLabels_mem 0 ops L i li hL hmi with ⟨k, rk, hk, hik, hopk⟩
    rcases opLabels_mem 0 ops L j lj hL hmj with ⟨k', rk', hk', hjk, hopk'⟩
    have hki : k = i := by omega
    have hkj : k' = j := by omega
    rw [hki] at hk
    rw [hkj] at hk'
    rw [hi] at hk
    rw [hj] at hk'
    cases hk
    cases hk'
    exact opNodeName_index_inj r i j hij li lj hopk hopk'

/-- Witness for the amended C10 on two identical records. -/
theorem c10_witness :
    ((bG twinOps).nodes.filterMap opProj).length = twinOps.length ∧
    ("n/T (op#0)\n input0 X\n output0 Y" : String) ≠
      "n/T (op#1)\n input0 X\n output0 Y" := by
  have hthm := c10_identical_records_not_merged twinOps (bG twinOps) rfl
  refine ⟨hthm.1, ?_⟩
  exact hthm.2 0 1 ⟨"n", "T", ["X"], ["Y"], ""⟩ _ _ (by omega)
    (by decide) (by decide) (by decide) (by decide)

end Netdrawer
